import Mathlib

/-!
# revdedup: restore engine (`branches/2.0/restore.c`) and bucket store
(`trunk/convdedup/bucket.c`)

A shallow embedding of the sender, the buffer-table pre-pass, the decompression
workers and the bucket service, followed by theorems about them.

Conventions of the embedding.

* The headers (`revdedup.h`, `datatable.h`, `bucket.h`, ...) are not part of the
  sources at hand, so the constants `ZERO_SIZE`, `BUCKET_SIZE`, `BLOCK_SIZE` and the
  width of the reference counter are parameters.
* The metadata logs are memory-mapped arrays indexed by an ID; they are total
  functions on `Nat`.  Sizes, offsets and IDs are natural numbers; the only counter
  whose wrap-around is at stake in a property (the slot reference count) is kept
  modulo its width.
* A pointer is an address (`Nat`), `0` is `NULL`, and memory is a function from
  addresses to bytes.
* `assert`s are enabled.  A short `pread` in a decompression worker aborts the run; the
  `write` calls of the sender and of the bucket service are taken to write all their bytes.
-/

/-! ## Part I: definitions -/

namespace Restore

/-- One byte of data. -/
abbrev Byte := Nat

/-- Segment log record (`SMEntry`), the fields used by `restore.c`. -/
structure SMEntry where
  bucket : Nat
  pos : Nat
  len : Nat
  cid : Nat
  chunks : Nat
  compressed : Bool
deriving DecidableEq

/-- Chunk log record (`CMEntry`), the fields used by `restore.c`. -/
structure CMEntry where
  pos : Nat
  len : Nat
deriving DecidableEq

/-- Slot of the data table (`DataEntry`): buffer address, decompressed size,
pending-reader count, the try-acquire gate (`lock`) and the completion gate
(`mutex`, `true` when held). -/
structure DataEntry where
  data : Nat
  size : Nat
  cnt : Nat
  lock : Bool
  mutex : Bool
deriving DecidableEq

/-- Constants and read-only mappings seen by the restore threads. -/
structure Ctx where
  /-- The macro `ZERO_SIZE`: size of the zero-filled region written for a hole. -/
  ZERO_SIZE : Nat
  /-- Modulus of the integer type of `DataEntry.cnt` (e.g. `2^32`). -/
  CNT_MOD : Nat
  /-- The segment log `sen`. -/
  sen : Nat → SMEntry
  /-- The chunk log `cen`. -/
  cen : Nat → CMEntry

/-- The bytes `mem[addr], ..., mem[addr + len - 1]`, as `write(fd, addr, len)` sends them. -/
def readBytes (mem : Nat → Byte) (addr len : Nat) : List Byte :=
  (List.range len).map fun k => mem (addr + k)

/-- The element `dinfo.dir[i].id` of the mapped recipe. -/
def dirId (recipe : List Nat) (i : Nat) : Nat := recipe.getD i 0

/-- Pre-increment `++c` in arithmetic modulo `m`. -/
def incr (m c : Nat) : Nat := (c + 1) % m

/-- Pre-decrement `--c` in arithmetic modulo `m`. -/
def decr (m c : Nat) : Nat := (c + (m - 1)) % m

/-- State touched by the sender: bytes written to `dinfo.ofd`, the data table, and the
buffers it has put back on the pool queue `dq`. -/
structure SendState where
  out : List Byte
  dt : Nat → DataEntry
  dq : List Nat

/-- The inner loop of `send` (restore.c:150-157), `for (j = ...; j < en->chunks; j++)`,
started at `j` with `fuel` iterations allowed.  `mem` is the memory as the sender sees it
once the completion gate of the slot has been passed. -/
def sendChunks (c : Ctx) (mem : Nat → Byte) (en : SMEntry) (den : DataEntry) :
    Nat → Nat → List Byte → List Byte
  | 0, _, out => out
  | fuel + 1, j, out =>
    if j < en.chunks then
      let cptr := c.cen (en.cid + j)
      if cptr.len = 0 then
        sendChunks c mem en den fuel (j + 1) (out ++ List.replicate c.ZERO_SIZE 0)
      else
        sendChunks c mem en den fuel (j + 1) (out ++ readBytes mem (den.data + cptr.pos) cptr.len)
    else out

/-- One iteration of the outer loop of `send` (restore.c:143-161) for recipe index `i`. -/
def sendEntry (c : Ctx) (recipe : List Nat) (mem : Nat → Nat → Byte) (i : Nat)
    (st : SendState) : SendState :=
  let id := dirId recipe i
  let en := c.sen id
  let den := st.dt id
  let out := sendChunks c (mem i) en den en.chunks 0 st.out
  let n := decr c.CNT_MOD den.cnt
  { out := out
    dt := Function.update st.dt id { den with cnt := n }
    dq := if n = 0 then st.dq ++ [den.data] else st.dq }

/-- The outer loop of `send` (restore.c:142-162), `for (i = ...; i < dinfo.cnt; i++)`,
started at `i` with `fuel` iterations allowed.  `mem i` is the memory contents while
entry `i` is being emitted (buffers are refilled by the workers between entries). -/
def sendLoop (c : Ctx) (recipe : List Nat) (mem : Nat → Nat → Byte) :
    Nat → Nat → SendState → SendState
  | 0, _, st => st
  | fuel + 1, i, st =>
    if i < recipe.length then
      sendLoop c recipe mem fuel (i + 1) (sendEntry c recipe mem i st)
    else st

/-- The routine `send` (restore.c:137-165): the whole walk over the recipe. -/
def send (c : Ctx) (recipe : List Nat) (mem : Nat → Nat → Byte) (st : SendState) : SendState :=
  sendLoop c recipe mem recipe.length 0 st

/-- The sender after its first `k` recipe entries. -/
def sendAfter (c : Ctx) (recipe : List Nat) (mem : Nat → Nat → Byte) (st : SendState)
    (k : Nat) : SendState :=
  sendLoop c recipe mem k 0 st

/-- What `send` is expected to write for chunk `j` of the segment `id`, read from the
decompressed bytes `seg id` of that segment. -/
def chunkSlice (c : Ctx) (seg : Nat → Nat → Byte) (id j : Nat) : List Byte :=
  readBytes (seg id) (c.cen ((c.sen id).cid + j)).pos (c.cen ((c.sen id).cid + j)).len

/-- The concatenation over the chunks `j = 0 .. chunks-1` of segment `id`. -/
def segmentSlices (c : Ctx) (seg : Nat → Nat → Byte) (id : Nat) : List Byte :=
  (List.range (c.sen id).chunks).flatMap fun j => chunkSlice c seg id j

/-- The concatenation over the recipe entries `i = 0 .. cnt-1`, in recipe order. -/
def recipeSlices (c : Ctx) (seg : Nat → Nat → Byte) (recipe : List Nat) : List Byte :=
  (List.range recipe.length).flatMap fun i => segmentSlices c seg (dirId recipe i)

/-- The bytes expected for chunk `j` of segment `id` when the slot's buffer starts at
address `base` of the memory `mem`: a run of `ZERO_SIZE` zero bytes for a chunk whose
length field is 0, the `len` bytes at offset `pos` of the buffer otherwise. -/
def chunkBytes (c : Ctx) (mem : Nat → Byte) (base id j : Nat) : List Byte :=
  if (c.cen ((c.sen id).cid + j)).len = 0 then List.replicate c.ZERO_SIZE 0
  else readBytes mem (base + (c.cen ((c.sen id).cid + j)).pos) (c.cen ((c.sen id).cid + j)).len

/-- The bytes expected for one recipe entry that references segment `id`. -/
def entryBytes (c : Ctx) (mem : Nat → Byte) (base id : Nat) : List Byte :=
  (List.range (c.sen id).chunks).flatMap fun j => chunkBytes c mem base id j

/-! ### The buffer-table pre-pass of `main` -/

/-- Modelled from the spec: `NewDataTable` (datatable.c is not among the sources).  A slot
is created the first time its segment is seen, with reference count 1, so before the pre-pass
no slot has a pending reader and no gate is held. -/
def NewDataTable : Nat → DataEntry :=
  fun _ => { data := 0, size := 0, cnt := 0, lock := false, mutex := false }

/-- State of the pre-pass: the data table and the prefetch queue `pfq`. -/
structure PreState where
  dt : Nat → DataEntry
  pfq : List Nat

/-- One iteration of the pre-pass (restore.c:226-231) for recipe index `i`. -/
def prepassEntry (c : Ctx) (recipe : List Nat) (i : Nat) (st : PreState) : PreState :=
  let id := dirId recipe i
  let den := st.dt id
  let n := incr c.CNT_MOD den.cnt
  if n = 1 then
    { dt := Function.update st.dt id { den with cnt := n, lock := false, mutex := true }
      pfq := st.pfq ++ [id] }
  else
    { dt := Function.update st.dt id { den with cnt := n }
      pfq := st.pfq }

/-- The loop of the pre-pass (restore.c:225-232), started at `i` with `fuel` iterations
allowed. -/
def prepassLoop (c : Ctx) (recipe : List Nat) : Nat → Nat → PreState → PreState
  | 0, _, st => st
  | fuel + 1, i, st =>
    if i < recipe.length then
      prepassLoop c recipe fuel (i + 1) (prepassEntry c recipe i st)
    else st

/-- The pre-pass of `main` (restore.c:221-233) on a fresh data table, closed by the
sentinel on the prefetch queue. -/
def prepass (c : Ctx) (recipe : List Nat) : PreState :=
  let st := prepassLoop c recipe recipe.length 0 { dt := NewDataTable, pfq := [] }
  { st with pfq := st.pfq ++ [0] }

/-! ### The decompression workers -/

/-- Read-only collaborators of a decompression worker: the bucket files by bucket ID and
the codec `lzo1x_decompress`, as the function from compressed to decompressed bytes. -/
structure Store where
  files : Nat → List Byte
  lzo : List Byte → List Byte

/-- The call `pread(fd, buf, len, pos)` under `assert(... == len)`: the `len` bytes at
offset `pos`, or `none` when the file is too short. -/
def pread (file : List Byte) (len pos : Nat) : Option (List Byte) :=
  if pos + len ≤ file.length then some ((file.drop pos).take len) else none

/-- The body restore.c:116-123 for the segment `id` whose gate was acquired: the bytes put
into the slot's buffer and the size recorded in the slot.  The test of the source is
`sen->compressed`, that is, the flag of entry 0 of the segment log. -/
def fillSlot (c : Ctx) (s : Store) (id : Nat) : Option (List Byte × Nat) :=
  let en := c.sen id
  if (c.sen 0).compressed then
    match pread (s.files en.bucket) en.len en.pos with
    | none => none
    | some cdata => some (s.lzo cdata, (s.lzo cdata).length)
  else
    match pread (s.files en.bucket) en.len en.pos with
    | none => none
    | some raw => some (raw, en.len)

/-- Memory after `bytes` have been stored at address `addr`. -/
def storeBytes (mem : Nat → Byte) (addr : Nat) (bytes : List Byte) : Nat → Byte :=
  fun a => if addr ≤ a ∧ a < addr + bytes.length then bytes.getD (a - addr) 0 else mem a

/-- Where a worker stands in the loop of `decompress`: before the claim, holding a claimed
index, holding the gate of the claimed segment, or out of the loop. -/
inductive Phase where
  | idle
  | claimed (i : Nat)
  | owner (i : Nat)
  | exited
deriving DecidableEq

/-- Shared state of the decompression pool.  `ops` is the log of the read/decompress
operations performed (one segment ID per operation), `aborted` is set by a failed `assert`. -/
structure PoolState where
  cur : Nat
  dt : Nat → DataEntry
  dq : List Nat
  mem : Nat → Byte
  phase : Nat → Phase
  ops : List Nat
  aborted : Bool

/-- One atomic step of worker `w` in `decompress` (restore.c:96-127):
the claim of the next index under `dinfo.lock` (97-102), the try-acquire of the gate
(104-106), or the filling of the slot (107-126), which waits while the pool is empty. -/
def decompressStep (c : Ctx) (s : Store) (recipe : List Nat) (w : Nat) (st : PoolState) :
    PoolState :=
  match st.phase w with
  | Phase.exited => st
  | Phase.idle =>
    if recipe.length ≤ st.cur then
      { st with cur := st.cur + 1, phase := Function.update st.phase w Phase.exited }
    else
      { st with cur := st.cur + 1, phase := Function.update st.phase w (Phase.claimed st.cur) }
  | Phase.claimed i =>
    let id := dirId recipe i
    if (st.dt id).lock then
      { st with phase := Function.update st.phase w Phase.idle }
    else
      { st with
        dt := Function.update st.dt id { st.dt id with lock := true }
        phase := Function.update st.phase w (Phase.owner i) }
  | Phase.owner i =>
    let id := dirId recipe i
    match st.dq with
    | [] => st
    | buf :: rest =>
      match fillSlot c s id with
      | none =>
        { st with
          dq := rest
          dt := Function.update st.dt id { st.dt id with data := buf }
          aborted := true }
      | some (bytes, size) =>
        { st with
          dq := rest
          dt := Function.update st.dt id { st.dt id with data := buf, size := size, mutex := false }
          mem := storeBytes st.mem buf bytes
          ops := st.ops ++ [id]
          phase := Function.update st.phase w Phase.idle }

/-- What the scheduler can pick: a step of worker `w`, or the sender putting the buffer
`buf` back on the pool (restore.c:160). -/
inductive Ev where
  | worker (w : Nat)
  | recycle (buf : Nat)
deriving DecidableEq

/-- One scheduled step of the pool of `n` workers (`DPS_CNT = n`). -/
def poolStep (c : Ctx) (s : Store) (recipe : List Nat) (n : Nat) (st : PoolState) (e : Ev) :
    PoolState :=
  if st.aborted then st
  else
    match e with
    | Ev.worker w => if w < n then decompressStep c s recipe w st else st
    | Ev.recycle buf => { st with dq := st.dq ++ [buf] }

/-- The pool after the interleaving `sched`. -/
def poolRun (c : Ctx) (s : Store) (recipe : List Nat) (n : Nat) (sched : List Ev)
    (st : PoolState) : PoolState :=
  sched.foldl (poolStep c s recipe n) st

/-- The pool as `main` starts it (restore.c:210-241): cursor 0, the data table of the
pre-pass, the free buffers `pool`, every worker before its first claim. -/
def poolInit (c : Ctx) (recipe : List Nat) (pool : List Nat) (mem : Nat → Byte) : PoolState :=
  { cur := 0
    dt := (prepass c recipe).dt
    dq := pool
    mem := mem
    phase := fun _ => Phase.idle
    ops := []
    aborted := false }

/-- No worker of the pool holds a claimed index that it has not dealt with yet. -/
def settled (n : Nat) (st : PoolState) : Prop :=
  ∀ w, w < n → st.phase w = Phase.idle ∨ st.phase w = Phase.exited

/-- Invariant of the decompression pool, on the cursor `cur`, the gates `L`, the phases `ph`
of the workers and the log `ops` of read/decompress operations. -/
structure PoolInv (recipe : List Nat) (n cur : Nat) (L : Nat → Bool) (ph : Nat → Phase)
    (ops : List Nat) : Prop where
  nodup : ops.Nodup
  ops_lock : ∀ id, id ∈ ops → L id = true
  ops_mem : ∀ id, id ∈ ops → id ∈ recipe
  owner_ok : ∀ w i, ph w = Phase.owner i →
    i < recipe.length ∧ L (dirId recipe i) = true ∧ dirId recipe i ∉ ops
  owner_inj : ∀ w v i j, ph w = Phase.owner i → ph v = Phase.owner j →
    dirId recipe i = dirId recipe j → w = v
  claimed_lt : ∀ w i, ph w = Phase.claimed i → i < recipe.length
  covered : ∀ k, k < cur → k < recipe.length →
    (∃ w, w < n ∧ ph w = Phase.claimed k) ∨ L (dirId recipe k) = true
  lock_src : ∀ id, L id = true →
    id ∈ ops ∨ ∃ w i, w < n ∧ ph w = Phase.owner i ∧ dirId recipe i = id
  outside : ∀ w, n ≤ w → ph w = Phase.idle

/-- The gates of a pool state. -/
def gates (st : PoolState) : Nat → Bool := fun id => (st.dt id).lock

/-- A test store: bucket 1 holds the stored bytes of segment 5 (`[1, 2, 3]`, compressed) and
of segment 3 (`[4, 6]`, verbatim); the codec of the test adds 6 to every byte. -/
def exStore : Store :=
  { files := fun b => if b = 1 then [1, 2, 3, 4, 6] else []
    lzo := fun l => l.map fun x => x + 6 }

/-! ### Concrete restore runs used as test inputs -/

/-- Metadata of the scenario with recipe `[5, 3, 5, 5]`: segment 5 is compressed and has the
chunks `cen[10] = (0, 2)` and `cen[11] = (2, 1)`; segment 3 is stored verbatim and has the
chunk `cen[20] = (0, 2)`. -/
def exCtx : Ctx :=
  { ZERO_SIZE := 4
    CNT_MOD := 2 ^ 32
    sen := fun id =>
      if id = 5 then { bucket := 1, pos := 0, len := 3, cid := 10, chunks := 2, compressed := true }
      else if id = 3 then
        { bucket := 1, pos := 3, len := 2, cid := 20, chunks := 1, compressed := false }
      else { bucket := 0, pos := 0, len := 0, cid := 0, chunks := 0, compressed := false }
    cen := fun k =>
      if k = 10 then { pos := 0, len := 2 }
      else if k = 11 then { pos := 2, len := 1 }
      else if k = 20 then { pos := 0, len := 2 }
      else { pos := 0, len := 0 } }

/-- The recipe of the scenario. -/
def exRecipe : List Nat := [5, 3, 5, 5]

/-- Decompressed bytes of the scenario: segment 5 is `[7, 8, 9]`, segment 3 is `[4, 6]`. -/
def exSeg (id k : Nat) : Byte :=
  if id = 5 then [7, 8, 9].getD k 0 else if id = 3 then [4, 6].getD k 0 else 0

/-- Memory of the scenario: the buffer of segment 5 at address 100, that of segment 3 at
address 200. -/
def exMem (_ : Nat) (a : Nat) : Byte :=
  if 100 ≤ a ∧ a < 103 then [7, 8, 9].getD (a - 100) 0
  else if 200 ≤ a ∧ a < 202 then [4, 6].getD (a - 200) 0
  else 0

/-- The sender's state of the scenario: reference counts 3 and 1 as left by the pre-pass,
buffers at 100 and 200. -/
def exSend : SendState :=
  { out := []
    dt := fun id =>
      if id = 5 then { data := 100, size := 3, cnt := 3, lock := true, mutex := false }
      else if id = 3 then { data := 200, size := 2, cnt := 1, lock := true, mutex := false }
      else NewDataTable id
    dq := [] }

/-- Metadata with a hole: segment 1 has the single chunk `cen[0] = (0, 0)`. -/
def holeCtx : Ctx :=
  { ZERO_SIZE := 4
    CNT_MOD := 2 ^ 32
    sen := fun id =>
      if id = 1 then { bucket := 1, pos := 0, len := 0, cid := 0, chunks := 1, compressed := false }
      else { bucket := 0, pos := 0, len := 0, cid := 0, chunks := 0, compressed := false }
    cen := fun _ => { pos := 0, len := 0 } }

/-- The sender's state for the hole: one pending reader of segment 1. -/
def holeSend : SendState :=
  { out := []
    dt := fun id =>
      if id = 1 then { data := 100, size := 0, cnt := 1, lock := true, mutex := false }
      else NewDataTable id
    dq := [] }

/-- An interleaving of two workers on the scenario: both claim, both acquire their gate,
worker 1 finishes segment 3 before worker 0 finishes segment 5, then both claim the two
remaining entries, find the gate of segment 5 taken, and leave. -/
def exSched : List Ev :=
  [Ev.worker 0, Ev.worker 1, Ev.worker 0, Ev.worker 1, Ev.worker 1, Ev.worker 0,
   Ev.worker 0, Ev.worker 1, Ev.worker 0, Ev.worker 1, Ev.worker 0, Ev.worker 1]

/-- The pool of the scenario after `exSched`, started with two free buffers. -/
def exPool : PoolState :=
  poolRun exCtx exStore exRecipe 2 exSched (poolInit exCtx exRecipe [100, 200] fun _ => 0)

end Restore

namespace BucketStore

/-- One byte of data. -/
abbrev Byte := Nat

/-- The constants of `bucket.h`. -/
structure Cfg where
  /-- Capacity of a bucket, the macro `BUCKET_SIZE`. -/
  BUCKET_SIZE : Nat
  /-- Block boundary of the padding, the macro `BLOCK_SIZE`. -/
  BLOCK_SIZE : Nat

/-- The fields of a `Chunk` record used by the bucket service; `cdata` is the memory that
the pointer `ch->cdata` points to. -/
structure Chunk where
  id : Nat
  unique : Bool
  clen : Nat
  cdata : Nat → Byte
  pos : Nat

/-- The open bucket (`Bucket`); its descriptor `fd` is the file of bucket `id`. -/
structure Bucket where
  id : Nat
  cid : Nat
  chunks : Nat
  size : Nat
deriving DecidableEq

/-- Bucket log record (`BMEntry`). -/
structure BMEntry where
  cid : Nat
  chunks : Nat
  size : Nat
  psize : Nat
  rsize : Nat
deriving DecidableEq

/-- A call `setChunk(ch, bid)` as the index service receives it: the address of the chunk,
the record it points to at that moment, and the bucket ID. -/
structure SetChunk where
  ptr : Nat
  ch : Chunk
  bucket : Nat

/-- State of the bucket service and of what it acts on: the counter `_log->bucketID`, the
bucket log `_en`, the bucket files by ID, the chunk records by address, the calls made to the
index service, the output queue `_oq` (as the sequence of pointers put on it), and the buckets
handed to `SaveBucket` so far. -/
structure Service where
  bucketID : Nat
  en : Nat → BMEntry
  files : Nat → List Byte
  heap : Nat → Chunk
  index : List SetChunk
  oq : List Nat
  saved : List Bucket

/-- The `clen` bytes at `cdata`, as `write(b->fd, ch->cdata, ch->clen)` appends them. -/
def payload (ch : Chunk) : List Byte := (List.range ch.clen).map ch.cdata

/-- The number of padding bytes of bucket.c:29. -/
def padding (cfg : Cfg) (size : Nat) : Nat :=
  (cfg.BLOCK_SIZE - size % cfg.BLOCK_SIZE) % cfg.BLOCK_SIZE

/-- The function `NewBucket` (bucket.c:14-26): the next bucket ID, an empty bucket, its file
created or truncated. -/
def NewBucket (svc : Service) (cid : Nat) : Service × Bucket :=
  let id := svc.bucketID + 1
  ({ svc with bucketID := id, files := Function.update svc.files id [] },
   { id := id, cid := cid, chunks := 0, size := 0 })

/-- The function `SaveBucket` (bucket.c:28-39): zero padding up to the block boundary, then
the bucket log entry. -/
def SaveBucket (cfg : Cfg) (svc : Service) (b : Bucket) : Service :=
  let remain := padding cfg b.size
  { svc with
    files := Function.update svc.files b.id (svc.files b.id ++ List.replicate remain 0)
    en := Function.update svc.en b.id
      { cid := b.cid, chunks := b.chunks, size := b.size + remain, psize := 0, rsize := 0 }
    saved := svc.saved ++ [b] }

/-- Lines 42-48 of `BucketInsert`: the bucket that will take a chunk of length `clen`. -/
def openFor (cfg : Cfg) (svc : Service) (b : Option Bucket) (cid clen : Nat) :
    Service × Bucket :=
  let r :=
    match b with
    | none => NewBucket svc cid
    | some bk => (svc, bk)
  if r.2.size + clen > cfg.BUCKET_SIZE then NewBucket (SaveBucket cfg r.1 r.2) cid
  else r

/-- Lines 49-53 of `BucketInsert`: the position is written into the chunk record at address
`p`, the index service is told, the payload is appended to the file of the bucket, and the
counters of the bucket are advanced. -/
def appendChunk (svc : Service) (b : Bucket) (p : Nat) : Service × Bucket :=
  let ch : Chunk := { svc.heap p with pos := b.size }
  ({ svc with
      heap := Function.update svc.heap p ch
      index := svc.index ++ [{ ptr := p, ch := ch, bucket := b.id }]
      files := Function.update svc.files b.id (svc.files b.id ++ payload ch) },
   { b with chunks := b.chunks + 1, size := b.size + ch.clen })

/-- The function `BucketInsert` (bucket.c:41-56) on the chunk at address `p`; `none` is the
`NULL` bucket. -/
def BucketInsert (cfg : Cfg) (svc : Service) (b : Option Bucket) (p : Nat) : Service × Bucket :=
  let r := openFor cfg svc b (svc.heap p).id (svc.heap p).clen
  appendChunk r.1 r.2 p

/-- One iteration of the loop of `process` (bucket.c:64-67) for the dequeued pointer `p`. -/
def processChunk (cfg : Cfg) (st : Service × Option Bucket) (p : Nat) : Service × Option Bucket :=
  let r : Service × Option Bucket :=
    if (st.1.heap p).unique then
      ((BucketInsert cfg st.1 st.2 p).1, some (BucketInsert cfg st.1 st.2 p).2)
    else st
  ({ r.1 with oq := r.1.oq ++ [p] }, r.2)

/-- The loop of `process` (bucket.c:63-68) on the pointers `iq` that arrive on the input
queue, `0` being `NULL`.  When the queue runs dry without a `NULL` the thread waits in
`Dequeue` for ever and there is no result. -/
def processLoop (cfg : Cfg) : List Nat → Service × Option Bucket → Option (Service × Option Bucket)
  | [], _ => none
  | p :: rest, st => if p = 0 then some st else processLoop cfg rest (processChunk cfg st p)

/-- Lines 69-71 of `process`: a bucket that is still open is saved. -/
def finish (cfg : Cfg) (st : Service × Option Bucket) : Service :=
  match st.2 with
  | some bk => SaveBucket cfg st.1 bk
  | none => st.1

/-- The thread `process` (bucket.c:59-74). -/
def process (cfg : Cfg) (iq : List Nat) (svc : Service) : Option Service :=
  match processLoop cfg iq (svc, none) with
  | none => none
  | some st => some { finish cfg st with oq := (finish cfg st).oq ++ [0] }

/-- The state of the loop after the chunks `ptrs`, none of them `NULL`. -/
def processed (cfg : Cfg) (ptrs : List Nat) (st : Service × Option Bucket) :
    Service × Option Bucket :=
  ptrs.foldl (processChunk cfg) st

/-- The calls to the index service, among `calls`, that name bucket `id`. -/
def callsOf (calls : List SetChunk) (id : Nat) : List SetChunk :=
  calls.filter fun k => decide (k.bucket = id)

/-- The payloads, in order, of the calls among `calls` that name bucket `id`. -/
def content (calls : List SetChunk) (id : Nat) : List Byte :=
  (callsOf calls id).flatMap fun k => payload k.ch

/-- The sum of the `clen` of the calls among `calls` that name bucket `id`. -/
def clenSum (calls : List SetChunk) (id : Nat) : Nat :=
  ((callsOf calls id).map fun k => k.ch.clen).sum

/-- The bucket log entry that `SaveBucket` writes for the bucket `b`. -/
def entryOf (cfg : Cfg) (b : Bucket) : BMEntry :=
  { cid := b.cid, chunks := b.chunks, size := b.size + padding cfg b.size, psize := 0, rsize := 0 }

/-- Invariant of the loop of `process` started in the service state `s0`: `calls` are the
calls made to the index service since then, `svc` is the service now and `b` the open
bucket. -/
structure Packed (cfg : Cfg) (s0 svc : Service) (b : Option Bucket) (calls : List SetChunk) :
    Prop where
  index_eq : svc.index = s0.index ++ calls
  id_lo : s0.bucketID ≤ svc.bucketID
  call_range : ∀ k, k ∈ calls → s0.bucketID < k.bucket ∧ k.bucket ≤ svc.bucketID
  closed : ∀ id, s0.bucketID < id → id ≤ svc.bucketID → (∀ bk, b = some bk → id ≠ bk.id) →
    svc.files id = content calls id ++ List.replicate (padding cfg (content calls id).length) 0
  opened : ∀ bk, b = some bk →
    bk.id = svc.bucketID ∧ s0.bucketID < bk.id ∧ svc.files bk.id = content calls bk.id ∧
    bk.size = (content calls bk.id).length ∧ bk.chunks = (callsOf calls bk.id).length
  pos_ok : ∀ i (h : i < calls.length),
    (calls.get ⟨i, h⟩).ch.pos = (content (calls.take i) (calls.get ⟨i, h⟩).bucket).length
  heap_ok : ∀ p, (svc.heap p).id = (s0.heap p).id ∧ (svc.heap p).unique = (s0.heap p).unique ∧
    (svc.heap p).clen = (s0.heap p).clen ∧ (svc.heap p).cdata = (s0.heap p).cdata
  call_ch : ∀ k, k ∈ calls → k.ch.clen = (s0.heap k.ptr).clen ∧
    k.ch.cdata = (s0.heap k.ptr).cdata ∧ (s0.heap k.ptr).unique = true
  old_files : ∀ id, id ≤ s0.bucketID → svc.files id = s0.files id

/-- Invariant of the loop of `process` started in the service state `s0`, on the buckets
`news` handed to `SaveBucket` since then and on the open bucket `b`. -/
structure Tidy (cfg : Cfg) (s0 svc : Service) (b : Option Bucket) (news : List Bucket) :
    Prop where
  saved_eq : svc.saved = s0.saved ++ news
  news_ok : ∀ x, x ∈ news → 0 < x.chunks ∧ x.size ≤ cfg.BUCKET_SIZE
  open_ok : ∀ bk, b = some bk → 0 < bk.chunks ∧ bk.size ≤ cfg.BUCKET_SIZE
  open_id : ∀ bk, b = some bk → bk.id = svc.bucketID
  news_id : ∀ x, x ∈ news → x.id ≤ svc.bucketID ∧ ∀ bk, b = some bk → x.id < bk.id
  en_ok : ∀ x, x ∈ news → svc.en x.id = entryOf cfg x
  heap_same : ∀ p, (svc.heap p).clen = (s0.heap p).clen ∧
    (svc.heap p).unique = (s0.heap p).unique

/-! ### A concrete run of the bucket service used as test input -/

/-- Test constants: buckets of 30 bytes, blocks of 8 bytes. -/
def exCfg : Cfg := { BUCKET_SIZE := 30, BLOCK_SIZE := 8 }

/-- Test chunk records: at addresses 1, 2 and 3 unique chunks of compressed length
`BUCKET_SIZE - 10 = 20`, 20 and 5; at every other address a duplicate chunk of length 7. -/
def exHeap (p : Nat) : Chunk :=
  if p = 1 then { id := 11, unique := true, clen := 20, cdata := fun _ => 1, pos := 0 }
  else if p = 2 then { id := 12, unique := true, clen := 20, cdata := fun _ => 2, pos := 0 }
  else if p = 3 then { id := 13, unique := true, clen := 5, cdata := fun _ => 3, pos := 0 }
  else { id := 14, unique := false, clen := 7, cdata := fun _ => 4, pos := 0 }

/-- Test service: a fresh bucket log, no bucket file, empty queues. -/
def exSvc : Service :=
  { bucketID := 0
    en := fun _ => { cid := 0, chunks := 0, size := 0, psize := 0, rsize := 0 }
    files := fun _ => []
    heap := exHeap
    index := []
    oq := []
    saved := [] }

end BucketStore

/-! ## Part II: theorems -/

namespace Restore

/-! ### The sender's output -/

theorem sendChunks_spec (c : Ctx) (mem : Nat → Byte) (id : Nat) (den : DataEntry) :
    ∀ (fuel j : Nat) (out : List Byte), j + fuel = (c.sen id).chunks →
      sendChunks c mem (c.sen id) den fuel j out =
        out ++ (List.range' j fuel).flatMap (fun j => chunkBytes c mem den.data id j) := by
  intro fuel
  induction fuel with
  | zero => intro j out _; simp [sendChunks]
  | succ n ih =>
    intro j out h
    have hj : j < (c.sen id).chunks := by omega
    simp only [sendChunks, hj, if_true]
    by_cases hz : (c.cen ((c.sen id).cid + j)).len = 0
    · simp only [hz, if_true]
      rw [ih (j + 1) _ (by omega)]
      simp [List.range'_succ, chunkBytes, hz, List.flatMap_cons, List.append_assoc]
    · simp only [hz, if_false]
      rw [ih (j + 1) _ (by omega)]
      simp [List.range'_succ, chunkBytes, hz, List.flatMap_cons, List.append_assoc]

theorem sendEntry_out (c : Ctx) (recipe : List Nat) (mem : Nat → Nat → Byte) (i : Nat)
    (st : SendState) :
    (sendEntry c recipe mem i st).out =
      st.out ++ entryBytes c (mem i) (st.dt (dirId recipe i)).data (dirId recipe i) := by
  have h := sendChunks_spec c (mem i) (dirId recipe i) (st.dt (dirId recipe i))
    (c.sen (dirId recipe i)).chunks 0 st.out (by omega)
  simp only [sendEntry, entryBytes, h, List.range_eq_range']

theorem sendEntry_data (c : Ctx) (recipe : List Nat) (mem : Nat → Nat → Byte) (i : Nat)
    (st : SendState) (s : Nat) :
    ((sendEntry c recipe mem i st).dt s).data = (st.dt s).data := by
  simp only [sendEntry, Function.update_apply]
  split_ifs with h
  · subst h; rfl
  · rfl

theorem sendLoop_out (c : Ctx) (recipe : List Nat) (mem : Nat → Nat → Byte) :
    ∀ (fuel i : Nat) (st : SendState), i + fuel ≤ recipe.length →
      (sendLoop c recipe mem fuel i st).out =
        st.out ++ (List.range' i fuel).flatMap (fun i =>
          entryBytes c (mem i) (st.dt (dirId recipe i)).data (dirId recipe i)) := by
  intro fuel
  induction fuel with
  | zero => intro i st _; simp [sendLoop]
  | succ n ih =>
    intro i st h
    have hi : i < recipe.length := by omega
    simp only [sendLoop, hi, if_true]
    rw [ih (i + 1) _ (by omega), sendEntry_out]
    simp only [sendEntry_data, List.range'_succ, List.flatMap_cons, List.append_assoc]

theorem send_out (c : Ctx) (recipe : List Nat) (mem : Nat → Nat → Byte) (st : SendState) :
    (send c recipe mem st).out =
      st.out ++ (List.range recipe.length).flatMap (fun i =>
        entryBytes c (mem i) (st.dt (dirId recipe i)).data (dirId recipe i)) := by
  simp only [send, sendLoop_out c recipe mem recipe.length 0 st (by omega),
    List.range_eq_range']

theorem readBytes_congr (m₁ m₂ : Nat → Byte) (a b len : Nat)
    (h : ∀ k, k < len → m₁ (a + k) = m₂ (b + k)) :
    readBytes m₁ a len = readBytes m₂ b len := by
  unfold readBytes
  apply List.map_congr_left
  intro k hk
  exact h k (List.mem_range.mp hk)

theorem flatMap_range_congr {α : Type} (n : Nat) (f g : Nat → List α)
    (h : ∀ i, i < n → f i = g i) :
    (List.range n).flatMap f = (List.range n).flatMap g := by
  induction n with
  | zero => rfl
  | succ m ih =>
    rw [List.range_succ, List.flatMap_append, List.flatMap_append,
      ih (fun i hi => h i (by omega))]
    simp [h m (by omega)]

/-- C1: if no chunk of a referenced segment is a hole and, while entry `i` is emitted, the
buffer of its slot holds the decompressed bytes `seg` of the segment `dir[i].id` on the byte
ranges of its chunks, then the bytes written by `send` are the concatenation, over the recipe
entries in recipe order, of the concatenation over the chunks `j` of that segment of the
bytes `[pos, pos+len)` of chunk `cen[cid+j]`. -/
theorem send_output_recipe_order (c : Ctx) (recipe : List Nat) (mem : Nat → Nat → Byte)
    (st : SendState) (seg : Nat → Nat → Byte)
    (hhole : ∀ i, i < recipe.length → ∀ j, j < (c.sen (dirId recipe i)).chunks →
      (c.cen ((c.sen (dirId recipe i)).cid + j)).len ≠ 0)
    (hbuf : ∀ i, i < recipe.length → ∀ j, j < (c.sen (dirId recipe i)).chunks →
      ∀ k, k < (c.cen ((c.sen (dirId recipe i)).cid + j)).len →
        mem i ((st.dt (dirId recipe i)).data +
            ((c.cen ((c.sen (dirId recipe i)).cid + j)).pos + k)) =
          seg (dirId recipe i) ((c.cen ((c.sen (dirId recipe i)).cid + j)).pos + k)) :
    (send c recipe mem st).out = st.out ++ recipeSlices c seg recipe := by
  rw [send_out, recipeSlices]
  congr 1
  apply flatMap_range_congr
  intro i hi
  unfold entryBytes segmentSlices
  apply flatMap_range_congr
  intro j hj
  unfold chunkBytes chunkSlice
  rw [if_neg (hhole i hi j hj)]
  apply readBytes_congr
  intro k hk
  rw [Nat.add_assoc]
  exact hbuf i hi j hj k hk

/-- C4 (amended): `send` writes, for the chunks of the recipe entries in order, a run of
exactly `ZERO_SIZE` zero bytes for every chunk whose length field is 0 (whatever the memory
holds), and the `len` buffer bytes at offset `pos` for every other chunk. -/
theorem send_hole_zero_run (c : Ctx) (recipe : List Nat) (mem : Nat → Nat → Byte)
    (st : SendState) :
    (send c recipe mem st).out =
      st.out ++ (List.range recipe.length).flatMap (fun i =>
        (List.range (c.sen (dirId recipe i)).chunks).flatMap (fun j =>
          if (c.cen ((c.sen (dirId recipe i)).cid + j)).len = 0 then
            List.replicate c.ZERO_SIZE 0
          else
            readBytes (mem i)
              ((st.dt (dirId recipe i)).data + (c.cen ((c.sen (dirId recipe i)).cid + j)).pos)
              (c.cen ((c.sen (dirId recipe i)).cid + j)).len)) := by
  rw [send_out]
  rfl

/-- C1, on the scenario: recipe `[5, 3, 5, 5]` yields
`segment5.bytes ++ segment3.bytes ++ segment5.bytes ++ segment5.bytes`. -/
theorem send_output_recipe_order_witness :
    (send exCtx exRecipe exMem exSend).out = [7, 8, 9] ++ [4, 6] ++ [7, 8, 9] ++ [7, 8, 9] :=
  (send_output_recipe_order exCtx exRecipe exMem exSend exSeg (by decide) (by decide)).trans
    (by decide)

/-- C4, as stated, fails: the single chunk of segment 1 has declared length 0, and `send`
writes `ZERO_SIZE = 4` zero bytes for it, not 0 bytes. -/
theorem send_hole_not_declared_length :
    (holeCtx.cen ((holeCtx.sen (dirId [1] 0)).cid + 0)).len = 0 ∧
    (send holeCtx [1] exMem holeSend).out = [0, 0, 0, 0] ∧
    (send holeCtx [1] exMem holeSend).out ≠
      List.replicate (holeCtx.cen ((holeCtx.sen (dirId [1] 0)).cid + 0)).len 0 := by
  decide

/-! ### Reference counts: the pre-pass and the sender's walk -/

theorem dirId_eq_getElem (recipe : List Nat) (i : Nat) (h : i < recipe.length) :
    dirId recipe i = recipe[i] := by
  unfold dirId
  exact List.getD_eq_getElem _ _ h

theorem count_drop_step (recipe : List Nat) (i s : Nat) (h : i < recipe.length) :
    (recipe.drop i).count s =
      (recipe.drop (i + 1)).count s + if dirId recipe i = s then 1 else 0 := by
  rw [List.drop_eq_getElem_cons h, List.count_cons, dirId_eq_getElem recipe i h]
  simp

theorem count_drop_le (recipe : List Nat) (i s : Nat) :
    (recipe.drop i).count s ≤ recipe.length - i := by
  calc (recipe.drop i).count s ≤ (recipe.drop i).length := List.count_le_length _ _
    _ = recipe.length - i := List.length_drop _ _

theorem prepassEntry_cnt (c : Ctx) (recipe : List Nat) (i : Nat) (st : PreState) (s : Nat) :
    ((prepassEntry c recipe i st).dt s).cnt =
      if dirId recipe i = s then incr c.CNT_MOD (st.dt s).cnt else (st.dt s).cnt := by
  unfold prepassEntry
  by_cases hs : dirId recipe i = s
  · subst hs
    by_cases h1 : incr c.CNT_MOD (st.dt (dirId recipe i)).cnt = 1 <;> simp [h1]
  · have hs2 : s ≠ dirId recipe i := fun h => hs h.symm
    by_cases h1 : incr c.CNT_MOD (st.dt (dirId recipe i)).cnt = 1 <;>
      simp [h1, hs, Function.update_noteq hs2]

theorem prepassLoop_cnt (c : Ctx) (recipe : List Nat) :
    ∀ (fuel i : Nat) (st : PreState) (s : Nat), i + fuel = recipe.length →
      (st.dt s).cnt + fuel < c.CNT_MOD →
      ((prepassLoop c recipe fuel i st).dt s).cnt = (st.dt s).cnt + (recipe.drop i).count s := by
  intro fuel
  induction fuel with
  | zero =>
    intro i st s h _
    have : recipe.drop i = [] := List.drop_eq_nil_of_le (by omega)
    simp [prepassLoop, this]
  | succ n ih =>
    intro i st s h hW
    have hi : i < recipe.length := by omega
    simp only [prepassLoop, hi, if_true]
    have hc := prepassEntry_cnt c recipe i st s
    by_cases hs : dirId recipe i = s
    · have hinc : incr c.CNT_MOD (st.dt s).cnt = (st.dt s).cnt + 1 := by
        unfold incr
        exact Nat.mod_eq_of_lt (by omega)
      rw [if_pos hs, hinc] at hc
      rw [ih (i + 1) _ s (by omega) (by omega), hc, count_drop_step recipe i s hi, if_pos hs]
      omega
    · rw [if_neg hs] at hc
      rw [ih (i + 1) _ s (by omega) (by omega), hc, count_drop_step recipe i s hi, if_neg hs]
      omega

theorem prepass_cnt (c : Ctx) (recipe : List Nat) (hW : recipe.length < c.CNT_MOD) (s : Nat) :
    ((prepass c recipe).dt s).cnt = recipe.count s := by
  have h := prepassLoop_cnt c recipe recipe.length 0 { dt := NewDataTable, pfq := [] } s
    (by omega) (by simpa [NewDataTable] using hW)
  simpa [prepass, NewDataTable] using h

theorem decr_succ (m k : Nat) (h : k + 1 < m) : decr m (k + 1) = k := by
  unfold decr
  have : k + 1 + (m - 1) = k + m := by omega
  rw [this, Nat.add_mod_right]
  exact Nat.mod_eq_of_lt (by omega)

theorem sendEntry_cnt (c : Ctx) (recipe : List Nat) (mem : Nat → Nat → Byte) (i : Nat)
    (st : SendState) (s : Nat) :
    ((sendEntry c recipe mem i st).dt s).cnt =
      if dirId recipe i = s then decr c.CNT_MOD (st.dt s).cnt else (st.dt s).cnt := by
  unfold sendEntry
  by_cases hs : dirId recipe i = s
  · subst hs
    simp
  · have hs2 : s ≠ dirId recipe i := fun h => hs h.symm
    simp [hs, Function.update_noteq hs2]

theorem sendLoop_succ_last (c : Ctx) (recipe : List Nat) (mem : Nat → Nat → Byte) :
    ∀ (fuel i : Nat) (st : SendState), i + fuel < recipe.length →
      sendLoop c recipe mem (fuel + 1) i st =
        sendEntry c recipe mem (i + fuel) (sendLoop c recipe mem fuel i st) := by
  intro fuel
  induction fuel with
  | zero =>
    intro i st h
    have hi : i < recipe.length := by omega
    simp [sendLoop, hi]
  | succ n ih =>
    intro i st h
    have hi : i < recipe.length := by omega
    have h2 := ih (i + 1) (sendEntry c recipe mem i st) (by omega)
    have e : i + 1 + n = i + (n + 1) := by omega
    rw [e] at h2
    conv_lhs => rw [sendLoop]
    simp only [hi, if_true]
    rw [h2]
    conv_rhs => rw [sendLoop]
    simp only [hi, if_true]

theorem sendAfter_succ (c : Ctx) (recipe : List Nat) (mem : Nat → Nat → Byte)
    (st : SendState) (k : Nat) (h : k < recipe.length) :
    sendAfter c recipe mem st (k + 1) =
      sendEntry c recipe mem k (sendAfter c recipe mem st k) := by
  have := sendLoop_succ_last c recipe mem k 0 st (by omega)
  simpa [sendAfter] using this

theorem sendAfter_cnt (c : Ctx) (recipe : List Nat) (mem : Nat → Nat → Byte)
    (st : SendState) (hW : recipe.length < c.CNT_MOD)
    (hst : ∀ s, (st.dt s).cnt = recipe.count s) :
    ∀ k, k ≤ recipe.length → ∀ s,
      ((sendAfter c recipe mem st k).dt s).cnt = (recipe.drop k).count s := by
  intro k
  induction k with
  | zero => intro _ s; simpa [sendAfter, sendLoop] using hst s
  | succ n ih =>
    intro h s
    have hn : n < recipe.length := by omega
    rw [sendAfter_succ c recipe mem st n hn, sendEntry_cnt, ih (by omega) s,
      count_drop_step recipe n s hn]
    by_cases hs : dirId recipe n = s
    · simp only [hs, if_true]
      exact decr_succ _ _ (by have := count_drop_le recipe (n + 1) s; omega)
    · simp [hs]

theorem sendAfter_data (c : Ctx) (recipe : List Nat) (mem : Nat → Nat → Byte)
    (st : SendState) (k s : Nat) :
    ((sendAfter c recipe mem st k).dt s).data = (st.dt s).data := by
  unfold sendAfter
  generalize 0 = i
  induction k generalizing i st with
  | zero => simp [sendLoop]
  | succ n ih =>
    simp only [sendLoop]
    split_ifs
    · rw [ih, sendEntry_data]
    · rfl

/-- C6: when the recipe is shorter than the range of the reference counter, the pre-pass
leaves in every slot the number of recipe entries that reference its segment; after the
sender's first `k` entries every slot holds the number of references among the entries still
to come, so each decrement is applied to a positive count (no wrap below zero); and the
buffer of the segment of entry `k` is put back on the pool at entry `k` exactly when no later
entry references that segment, that is, once, at its last occurrence. -/
theorem send_refcount_recycle (c : Ctx) (recipe : List Nat) (mem : Nat → Nat → Byte)
    (st : SendState) (hW : recipe.length < c.CNT_MOD)
    (hst : ∀ s, (st.dt s).cnt = ((prepass c recipe).dt s).cnt) :
    (∀ s, (st.dt s).cnt = recipe.count s) ∧
    (∀ k, k ≤ recipe.length → ∀ s,
      ((sendAfter c recipe mem st k).dt s).cnt = (recipe.drop k).count s) ∧
    (∀ k, k < recipe.length →
      0 < ((sendAfter c recipe mem st k).dt (dirId recipe k)).cnt ∧
      ((sendAfter c recipe mem st (k + 1)).dt (dirId recipe k)).cnt + 1 =
        ((sendAfter c recipe mem st k).dt (dirId recipe k)).cnt) ∧
    (∀ k, k < recipe.length →
      (sendAfter c recipe mem st (k + 1)).dq =
        (sendAfter c recipe mem st k).dq ++
          if dirId recipe k ∈ recipe.drop (k + 1) then [] else [(st.dt (dirId recipe k)).data]) ∧
    send c recipe mem st = sendAfter c recipe mem st recipe.length := by
  have h0 : ∀ s, (st.dt s).cnt = recipe.count s := fun s => by
    rw [hst s, prepass_cnt c recipe hW s]
  have hk := sendAfter_cnt c recipe mem st hW h0
  refine ⟨h0, hk, ?_, ?_, rfl⟩
  · intro k hlt
    rw [hk k (by omega), hk (k + 1) (by omega), count_drop_step recipe k _ hlt]
    simp
  · intro k hlt
    rw [sendAfter_succ c recipe mem st k hlt]
    have hc := hk k (by omega) (dirId recipe k)
    rw [count_drop_step recipe k _ hlt] at hc
    simp only [if_true] at hc
    have hd : decr c.CNT_MOD ((sendAfter c recipe mem st k).dt (dirId recipe k)).cnt =
        (recipe.drop (k + 1)).count (dirId recipe k) := by
      rw [hc]
      exact decr_succ _ _ (by have := count_drop_le recipe (k + 1) (dirId recipe k); omega)
    simp only [sendEntry, hd, sendAfter_data]
    by_cases hm : dirId recipe k ∈ recipe.drop (k + 1)
    · have : (recipe.drop (k + 1)).count (dirId recipe k) ≠ 0 := by
        have := List.count_pos_iff.mpr hm
        omega
      simp [hm, this]
    · have : (recipe.drop (k + 1)).count (dirId recipe k) = 0 := List.count_eq_zero.mpr hm
      simp [hm, this]

/-! ### The decompression pool: every segment is read and decompressed once -/

theorem prepassEntry_lock (c : Ctx) (recipe : List Nat) (i : Nat) (st : PreState)
    (h : ∀ id, (st.dt id).lock = false) : ∀ id, ((prepassEntry c recipe i st).dt id).lock = false := by
  intro id
  unfold prepassEntry
  by_cases h1 : incr c.CNT_MOD (st.dt (dirId recipe i)).cnt = 1 <;>
    by_cases hid : id = dirId recipe i <;> simp [h1, hid, Function.update_apply, h]

theorem prepassLoop_lock (c : Ctx) (recipe : List Nat) :
    ∀ (fuel i : Nat) (st : PreState), (∀ id, (st.dt id).lock = false) →
      ∀ id, ((prepassLoop c recipe fuel i st).dt id).lock = false := by
  intro fuel
  induction fuel with
  | zero => intro i st h id; simpa [prepassLoop] using h id
  | succ n ih =>
    intro i st h id
    simp only [prepassLoop]
    split_ifs
    · exact ih (i + 1) _ (prepassEntry_lock c recipe i st h) id
    · exact h id

theorem prepass_lock (c : Ctx) (recipe : List Nat) (id : Nat) :
    ((prepass c recipe).dt id).lock = false := by
  have := prepassLoop_lock c recipe recipe.length 0 { dt := NewDataTable, pfq := [] }
    (by intro id; rfl) id
  simpa [prepass] using this

theorem dirId_mem (recipe : List Nat) (i : Nat) (h : i < recipe.length) :
    dirId recipe i ∈ recipe := by
  rw [dirId_eq_getElem recipe i h]
  exact List.getElem_mem h

theorem inv_init (recipe : List Nat) (n : Nat) :
    PoolInv recipe n 0 (fun _ => false) (fun _ => Phase.idle) [] where
  nodup := List.nodup_nil
  ops_lock := by intro id h; simp at h
  ops_mem := by intro id h; simp at h
  owner_ok := by intro w i h; simp at h
  owner_inj := by intro w v i j h; simp at h
  claimed_lt := by intro w i h; simp at h
  covered := by intro k h; omega
  lock_src := by intro id h; simp at h
  outside := by intro w _; rfl

theorem inv_leave {recipe : List Nat} {n cur : Nat} {L : Nat → Bool} {ph : Nat → Phase}
    {ops : List Nat} (h : PoolInv recipe n cur L ph ops) (w : Nat) (hw : w < n)
    (hp : ph w = Phase.idle) (hc : recipe.length ≤ cur) :
    PoolInv recipe n (cur + 1) L (Function.update ph w Phase.exited) ops where
  nodup := h.nodup
  ops_lock := h.ops_lock
  ops_mem := h.ops_mem
  owner_ok := by
    intro v i hv
    by_cases e : v = w
    · subst e; simp at hv
    · rw [Function.update_noteq e] at hv; exact h.owner_ok v i hv
  owner_inj := by
    intro v u i j hv hu
    by_cases e : v = w
    · subst e; simp at hv
    · by_cases e2 : u = w
      · subst e2; simp at hu
      · rw [Function.update_noteq e] at hv
        rw [Function.update_noteq e2] at hu
        exact h.owner_inj v u i j hv hu
  claimed_lt := by
    intro v i hv
    by_cases e : v = w
    · subst e; simp at hv
    · rw [Function.update_noteq e] at hv; exact h.claimed_lt v i hv
  covered := by
    intro k hk hlen
    rcases h.covered k (by omega) hlen with ⟨v, hv, hpv⟩ | hl
    · left
      refine ⟨v, hv, ?_⟩
      have e : v ≠ w := by
        intro e; subst e; rw [hp] at hpv; cases hpv
      rw [Function.update_noteq e]; exact hpv
    · exact Or.inr hl
  lock_src := by
    intro id hl
    rcases h.lock_src id hl with ho | ⟨v, i, hv, hpv, hid⟩
    · exact Or.inl ho
    · right
      refine ⟨v, i, hv, ?_, hid⟩
      have e : v ≠ w := by
        intro e; subst e; rw [hp] at hpv; cases hpv
      rw [Function.update_noteq e]; exact hpv
  outside := by
    intro v hv
    have e : v ≠ w := by omega
    rw [Function.update_noteq e]; exact h.outside v hv

theorem inv_claim {recipe : List Nat} {n cur : Nat} {L : Nat → Bool} {ph : Nat → Phase}
    {ops : List Nat} (h : PoolInv recipe n cur L ph ops) (w : Nat) (hw : w < n)
    (hp : ph w = Phase.idle) (hc : cur < recipe.length) :
    PoolInv recipe n (cur + 1) L (Function.update ph w (Phase.claimed cur)) ops where
  nodup := h.nodup
  ops_lock := h.ops_lock
  ops_mem := h.ops_mem
  owner_ok := by
    intro v i hv
    by_cases e : v = w
    · subst e; simp at hv
    · rw [Function.update_noteq e] at hv; exact h.owner_ok v i hv
  owner_inj := by
    intro v u i j hv hu
    by_cases e : v = w
    · subst e; simp at hv
    · by_cases e2 : u = w
      · subst e2; simp at hu
      · rw [Function.update_noteq e] at hv
        rw [Function.update_noteq e2] at hu
        exact h.owner_inj v u i j hv hu
  claimed_lt := by
    intro v i hv
    by_cases e : v = w
    · subst e
      simp at hv
      omega
    · rw [Function.update_noteq e] at hv; exact h.claimed_lt v i hv
  covered := by
    intro k hk hlen
    by_cases hk2 : k = cur
    · subst hk2
      exact Or.inl ⟨w, hw, by simp⟩
    · rcases h.covered k (by omega) hlen with ⟨v, hv, hpv⟩ | hl
      · left
        refine ⟨v, hv, ?_⟩
        have e : v ≠ w := by
          intro e; subst e; rw [hp] at hpv; cases hpv
        rw [Function.update_noteq e]; exact hpv
      · exact Or.inr hl
  lock_src := by
    intro id hl
    rcases h.lock_src id hl with ho | ⟨v, i, hv, hpv, hid⟩
    · exact Or.inl ho
    · right
      refine ⟨v, i, hv, ?_, hid⟩
      have e : v ≠ w := by
        intro e; subst e; rw [hp] at hpv; cases hpv
      rw [Function.update_noteq e]; exact hpv
  outside := by
    intro v hv
    have e : v ≠ w := by omega
    rw [Function.update_noteq e]; exact h.outside v hv

theorem inv_skip {recipe : List Nat} {n cur : Nat} {L : Nat → Bool} {ph : Nat → Phase}
    {ops : List Nat} (h : PoolInv recipe n cur L ph ops) (w i : Nat)
    (hp : ph w = Phase.claimed i) (hl : L (dirId recipe i) = true) :
    PoolInv recipe n cur L (Function.update ph w Phase.idle) ops where
  nodup := h.nodup
  ops_lock := h.ops_lock
  ops_mem := h.ops_mem
  owner_ok := by
    intro v j hv
    by_cases e : v = w
    · subst e; simp at hv
    · rw [Function.update_noteq e] at hv; exact h.owner_ok v j hv
  owner_inj := by
    intro v u a b hv hu
    by_cases e : v = w
    · subst e; simp at hv
    · by_cases e2 : u = w
      · subst e2; simp at hu
      · rw [Function.update_noteq e] at hv
        rw [Function.update_noteq e2] at hu
        exact h.owner_inj v u a b hv hu
  claimed_lt := by
    intro v j hv
    by_cases e : v = w
    · subst e; simp at hv
    · rw [Function.update_noteq e] at hv; exact h.claimed_lt v j hv
  covered := by
    intro k hk hlen
    rcases h.covered k hk hlen with ⟨v, hv, hpv⟩ | hl2
    · by_cases e : v = w
      · subst e
        rw [hp] at hpv
        cases hpv
        exact Or.inr hl
      · left
        refine ⟨v, hv, ?_⟩
        rw [Function.update_noteq e]; exact hpv
    · exact Or.inr hl2
  lock_src := by
    intro id hl2
    rcases h.lock_src id hl2 with ho | ⟨v, j, hv, hpv, hid⟩
    · exact Or.inl ho
    · right
      refine ⟨v, j, hv, ?_, hid⟩
      have e : v ≠ w := by
        intro e; subst e; rw [hp] at hpv; cases hpv
      rw [Function.update_noteq e]; exact hpv
  outside := by
    intro v hv
    by_cases e : v = w
    · subst e; simp
    · rw [Function.update_noteq e]; exact h.outside v hv

theorem inv_acquire {recipe : List Nat} {n cur : Nat} {L : Nat → Bool} {ph : Nat → Phase}
    {ops : List Nat} (h : PoolInv recipe n cur L ph ops) (w i : Nat) (hw : w < n)
    (hp : ph w = Phase.claimed i) (hl : L (dirId recipe i) = false) :
    PoolInv recipe n cur (Function.update L (dirId recipe i) true)
      (Function.update ph w (Phase.owner i)) ops where
  nodup := h.nodup
  ops_lock := by
    intro id hid
    rw [Function.update_apply]
    split_ifs
    · rfl
    · exact h.ops_lock id hid
  ops_mem := h.ops_mem
  owner_ok := by
    intro v j hv
    by_cases e : v = w
    · subst e
      have hji : i = j := by simpa using hv
      rw [← hji]
      refine ⟨h.claimed_lt _ _ hp, by simp, ?_⟩
      intro hm
      rw [h.ops_lock _ hm] at hl
      cases hl
    · rw [Function.update_noteq e] at hv
      obtain ⟨h1, h2, h3⟩ := h.owner_ok v j hv
      refine ⟨h1, ?_, h3⟩
      rw [Function.update_apply]
      split_ifs
      · rfl
      · exact h2
  owner_inj := by
    intro v u a b hv hu hab
    by_cases e : v = w
    · by_cases e2 : u = w
      · rw [e, e2]
      · exfalso
        subst e
        have hia : i = a := by simpa using hv
        rw [Function.update_noteq e2] at hu
        have := (h.owner_ok u b hu).2.1
        rw [← hab, ← hia, hl] at this
        cases this
    · by_cases e2 : u = w
      · exfalso
        subst e2
        have hib : i = b := by simpa using hu
        rw [Function.update_noteq e] at hv
        have := (h.owner_ok v a hv).2.1
        rw [hab, ← hib, hl] at this
        cases this
      · rw [Function.update_noteq e] at hv
        rw [Function.update_noteq e2] at hu
        exact h.owner_inj v u a b hv hu hab
  claimed_lt := by
    intro v j hv
    by_cases e : v = w
    · subst e; simp at hv
    · rw [Function.update_noteq e] at hv; exact h.claimed_lt v j hv
  covered := by
    intro k hk hlen
    rcases h.covered k hk hlen with ⟨v, hv, hpv⟩ | hl2
    · by_cases e : v = w
      · subst e
        rw [hp] at hpv
        cases hpv
        exact Or.inr (by simp)
      · left
        refine ⟨v, hv, ?_⟩
        rw [Function.update_noteq e]; exact hpv
    · right
      rw [Function.update_apply]
      split_ifs
      · rfl
      · exact hl2
  lock_src := by
    intro id hl2
    by_cases hid : id = dirId recipe i
    · right
      exact ⟨w, i, hw, by simp, hid.symm⟩
    · rw [Function.update_noteq hid] at hl2
      rcases h.lock_src id hl2 with ho | ⟨v, j, hv, hpv, hid2⟩
      · exact Or.inl ho
      · right
        refine ⟨v, j, hv, ?_, hid2⟩
        have e : v ≠ w := by
          intro e; subst e; rw [hp] at hpv; cases hpv
        rw [Function.update_noteq e]; exact hpv
  outside := by
    intro v hv
    have e : v ≠ w := by omega
    rw [Function.update_noteq e]; exact h.outside v hv

theorem inv_fill {recipe : List Nat} {n cur : Nat} {L : Nat → Bool} {ph : Nat → Phase}
    {ops : List Nat} (h : PoolInv recipe n cur L ph ops) (w i : Nat)
    (hp : ph w = Phase.owner i) :
    PoolInv recipe n cur L (Function.update ph w Phase.idle) (ops ++ [dirId recipe i]) where
  nodup := by
    have hno := (h.owner_ok w i hp).2.2
    exact List.Nodup.append h.nodup (List.nodup_singleton _) (by simpa using hno)
  ops_lock := by
    intro id hid
    rcases List.mem_append.mp hid with ho | hs
    · exact h.ops_lock id ho
    · have e : id = dirId recipe i := by simpa using hs
      rw [e]
      exact (h.owner_ok w i hp).2.1
  ops_mem := by
    intro id hid
    rcases List.mem_append.mp hid with ho | hs
    · exact h.ops_mem id ho
    · have e : id = dirId recipe i := by simpa using hs
      rw [e]
      exact dirId_mem recipe i (h.owner_ok w i hp).1
  owner_ok := by
    intro v j hv
    by_cases e : v = w
    · subst e; simp at hv
    · rw [Function.update_noteq e] at hv
      obtain ⟨h1, h2, h3⟩ := h.owner_ok v j hv
      refine ⟨h1, h2, ?_⟩
      intro hm
      rcases List.mem_append.mp hm with ho | hs
      · exact h3 ho
      · have e2 : dirId recipe j = dirId recipe i := by simpa using hs
        exact e (h.owner_inj v w j i hv hp e2)
  owner_inj := by
    intro v u a b hv hu
    by_cases e : v = w
    · subst e; simp at hv
    · by_cases e2 : u = w
      · subst e2; simp at hu
      · rw [Function.update_noteq e] at hv
        rw [Function.update_noteq e2] at hu
        exact h.owner_inj v u a b hv hu
  claimed_lt := by
    intro v j hv
    by_cases e : v = w
    · subst e; simp at hv
    · rw [Function.update_noteq e] at hv; exact h.claimed_lt v j hv
  covered := by
    intro k hk hlen
    rcases h.covered k hk hlen with ⟨v, hv, hpv⟩ | hl2
    · left
      refine ⟨v, hv, ?_⟩
      have e : v ≠ w := by
        intro e; subst e; rw [hp] at hpv; cases hpv
      rw [Function.update_noteq e]; exact hpv
    · exact Or.inr hl2
  lock_src := by
    intro id hl2
    rcases h.lock_src id hl2 with ho | ⟨v, j, hv, hpv, hid2⟩
    · exact Or.inl (List.mem_append.mpr (Or.inl ho))
    · by_cases e : v = w
      · subst e
        rw [hp] at hpv
        cases hpv
        left
        rw [← hid2]
        simp
      · right
        refine ⟨v, j, hv, ?_, hid2⟩
        rw [Function.update_noteq e]; exact hpv
  outside := by
    intro v hv
    by_cases e : v = w
    · subst e; simp
    · rw [Function.update_noteq e]; exact h.outside v hv

theorem PoolInv_congr {recipe : List Nat} {n cur : Nat} {L M : Nat → Bool} {ph : Nat → Phase}
    {ops : List Nat} (e : ∀ id, L id = M id) (h : PoolInv recipe n cur L ph ops) :
    PoolInv recipe n cur M ph ops := by
  have : L = M := funext e
  rw [← this]
  exact h

theorem decompressStep_inv (c : Ctx) (s : Store) (recipe : List Nat) (n w : Nat) (hw : w < n)
    (st : PoolState) (h : PoolInv recipe n st.cur (gates st) st.phase st.ops) :
    PoolInv recipe n (decompressStep c s recipe w st).cur (gates (decompressStep c s recipe w st))
      (decompressStep c s recipe w st).phase (decompressStep c s recipe w st).ops := by
  unfold decompressStep
  cases hp : st.phase w with
  | exited => simpa using h
  | idle =>
    simp only
    split_ifs with hc
    · exact inv_leave h w hw hp hc
    · exact inv_claim h w hw hp (by omega)
  | claimed i =>
    simp only
    cases hl : (st.dt (dirId recipe i)).lock with
    | true =>
      simp only [if_true]
      exact inv_skip h w i hp hl
    | false =>
      simp only [Bool.false_eq_true, if_false]
      refine PoolInv_congr ?_ (inv_acquire h w i hw hp hl)
      intro id
      simp only [gates, Function.update_apply]
      split_ifs <;> rfl
  | owner i =>
    simp only
    cases hq : st.dq with
    | nil => simpa using h
    | cons buf rest =>
      simp only
      cases hf : fillSlot c s (dirId recipe i) with
      | none =>
        simp only
        refine PoolInv_congr ?_ h
        intro id
        simp only [gates, Function.update_apply]
        split_ifs with e
        · rw [e]
        · rfl
      | some r =>
        obtain ⟨bytes, size⟩ := r
        simp only
        refine PoolInv_congr ?_ (inv_fill h w i hp)
        intro id
        simp only [gates, Function.update_apply]
        split_ifs with e
        · rw [e]
        · rfl

theorem poolStep_inv (c : Ctx) (s : Store) (recipe : List Nat) (n : Nat) (st : PoolState)
    (e : Ev) (h : PoolInv recipe n st.cur (gates st) st.phase st.ops) :
    PoolInv recipe n (poolStep c s recipe n st e).cur (gates (poolStep c s recipe n st e))
      (poolStep c s recipe n st e).phase (poolStep c s recipe n st e).ops := by
  unfold poolStep
  split_ifs with ha
  · exact h
  · cases e with
    | worker w =>
      simp only
      split_ifs with hw
      · exact decompressStep_inv c s recipe n w hw st h
      · exact h
    | recycle buf => exact h

theorem poolRun_inv (c : Ctx) (s : Store) (recipe : List Nat) (n : Nat) :
    ∀ (sched : List Ev) (st : PoolState),
      PoolInv recipe n st.cur (gates st) st.phase st.ops →
      PoolInv recipe n (poolRun c s recipe n sched st).cur
        (gates (poolRun c s recipe n sched st))
        (poolRun c s recipe n sched st).phase (poolRun c s recipe n sched st).ops := by
  intro sched
  induction sched with
  | nil => intro st h; exact h
  | cons e rest ih =>
    intro st h
    exact ih _ (poolStep_inv c s recipe n st e h)

theorem poolInit_inv (c : Ctx) (recipe : List Nat) (n : Nat) (pool : List Nat)
    (mem : Nat → Byte) :
    PoolInv recipe n (poolInit c recipe pool mem).cur (gates (poolInit c recipe pool mem))
      (poolInit c recipe pool mem).phase (poolInit c recipe pool mem).ops := by
  have hg : gates (poolInit c recipe pool mem) = fun _ => false := by
    funext id
    exact prepass_lock c recipe id
  rw [hg]
  exact inv_init recipe n

theorem inv_settled {recipe : List Nat} {n cur : Nat} {L : Nat → Bool} {ph : Nat → Phase}
    {ops : List Nat} (h : PoolInv recipe n cur L ph ops) (hc : recipe.length ≤ cur)
    (hs : ∀ w, w < n → ph w = Phase.idle ∨ ph w = Phase.exited) :
    ∀ id, id ∈ ops ↔ id ∈ recipe := by
  intro id
  constructor
  · exact h.ops_mem id
  · intro hm
    obtain ⟨k, hk, hid⟩ := List.getElem_of_mem hm
    have hd : dirId recipe k = id := by rw [dirId_eq_getElem recipe k hk, hid]
    have hlock : L id = true := by
      rcases h.covered k (by omega) hk with ⟨w, hw, hpw⟩ | hl
      · rcases hs w hw with h1 | h1 <;> rw [h1] at hpw <;> cases hpw
      · rw [← hd]; exact hl
    rcases h.lock_src id hlock with ho | ⟨w, i, hw, hpw, _⟩
    · exact ho
    · rcases hs w hw with h1 | h1 <;> rw [h1] at hpw <;> cases hpw

/-- C2: for every recipe and every interleaving of the workers' steps (and of buffers coming
back to the pool), no segment is read/decompressed twice and only segments of the recipe
are; once every recipe index has been claimed, every segment of the recipe has been
read/decompressed or is in the hands of a worker that claimed it; and when no worker holds a
claimed index it has not dealt with yet, the read/decompress operations performed are exactly
one per distinct segment ID of the recipe, however many entries reference it. -/
theorem decompress_once_per_segment (c : Ctx) (s : Store) (recipe : List Nat) (n : Nat)
    (pool : List Nat) (mem : Nat → Byte) (sched : List Ev) :
    (poolRun c s recipe n sched (poolInit c recipe pool mem)).ops.Nodup ∧
    (∀ id, id ∈ (poolRun c s recipe n sched (poolInit c recipe pool mem)).ops → id ∈ recipe) ∧
    (recipe.length ≤ (poolRun c s recipe n sched (poolInit c recipe pool mem)).cur →
      ∀ id, id ∈ recipe →
        id ∈ (poolRun c s recipe n sched (poolInit c recipe pool mem)).ops ∨
        ∃ w i, w < n ∧ dirId recipe i = id ∧
          ((poolRun c s recipe n sched (poolInit c recipe pool mem)).phase w = Phase.claimed i ∨
           (poolRun c s recipe n sched (poolInit c recipe pool mem)).phase w = Phase.owner i)) ∧
    (recipe.length ≤ (poolRun c s recipe n sched (poolInit c recipe pool mem)).cur →
      settled n (poolRun c s recipe n sched (poolInit c recipe pool mem)) →
      (poolRun c s recipe n sched (poolInit c recipe pool mem)).ops.length =
          recipe.dedup.length ∧
      (∀ id, id ∈ recipe →
        (poolRun c s recipe n sched (poolInit c recipe pool mem)).ops.count id = 1) ∧
      (∀ id, id ∉ recipe →
        (poolRun c s recipe n sched (poolInit c recipe pool mem)).ops.count id = 0)) := by
  have h := poolRun_inv c s recipe n sched _ (poolInit_inv c recipe n pool mem)
  refine ⟨h.nodup, h.ops_mem, ?_, ?_⟩
  · intro hc id hm
    obtain ⟨k, hk, hid⟩ := List.getElem_of_mem hm
    have hd : dirId recipe k = id := by rw [dirId_eq_getElem recipe k hk, hid]
    rcases h.covered k (by omega) hk with ⟨w, hw, hpw⟩ | hl
    · exact Or.inr ⟨w, k, hw, hd, Or.inl hpw⟩
    · rw [hd] at hl
      rcases h.lock_src id hl with ho | ⟨w, i, hw, hpw, hi⟩
      · exact Or.inl ho
      · exact Or.inr ⟨w, i, hw, hi, Or.inr hpw⟩
  intro hc hs
  have hiff := inv_settled h hc hs
  refine ⟨?_, ?_, ?_⟩
  · apply List.Perm.length_eq
    rw [List.perm_ext_iff_of_nodup h.nodup (List.nodup_dedup recipe)]
    intro id
    rw [hiff id, List.mem_dedup]
  · intro id hid
    exact List.count_eq_one_of_mem h.nodup ((hiff id).mpr hid)
  · intro id hid
    exact List.count_eq_zero.mpr (fun hm => hid ((hiff id).mp hm))

/-- C2, on the scenario: after the interleaving `exSched` every index of `[5, 3, 5, 5]` has
been claimed, both workers are out of the loop, and two operations were performed, one on
segment 3 and one on segment 5. -/
theorem decompress_once_per_segment_witness :
    exRecipe.length ≤ exPool.cur ∧ settled 2 exPool ∧ exPool.ops = [3, 5] ∧
    exPool.ops.length = exRecipe.dedup.length :=
  ⟨by decide, by unfold settled; decide, by decide,
    ((decompress_once_per_segment exCtx exStore exRecipe 2 [100, 200] (fun _ => 0)
      exSched).2.2.2 (by decide) (by unfold settled; decide)).1⟩

/-- C5 (the code at the failing input): segment 5 is marked compressed and segment 3 is
not, entry 0 of the segment log is not marked compressed; the slot of segment 5 is filled
with the stored bytes `[1, 2, 3]` verbatim, not with their decompression `[7, 8, 9]`. -/
theorem fillSlot_tests_entry_zero :
    (exCtx.sen 5).compressed = true ∧ (exCtx.sen 3).compressed = false ∧
    (exCtx.sen 0).compressed = false ∧
    fillSlot exCtx exStore 5 = some ([1, 2, 3], 3) ∧
    fillSlot exCtx exStore 3 = some ([4, 6], 2) ∧
    exStore.lzo [1, 2, 3] = [7, 8, 9] := by
  decide

theorem exSend_cnt (s : Nat) : (exSend.dt s).cnt = ((prepass exCtx exRecipe).dt s).cnt := by
  rw [prepass_cnt exCtx exRecipe (by decide) s]
  by_cases h5 : s = 5
  · subst h5; decide
  · by_cases h3 : s = 3
    · subst h3; decide
    · have e5 : ¬ (5 = s) := fun h => h5 h.symm
      have e3 : ¬ (3 = s) := fun h => h3 h.symm
      simp [exSend, exRecipe, NewDataTable, h5, h3, e5, e3, List.count_cons]

/-- C6, on the scenario `[5, 3, 5, 5]`: the buffer of segment 3 (address 200) goes back to
the pool at entry 1, that of segment 5 (address 100) at entry 3 and not at entries 0 or 2. -/
theorem send_refcount_recycle_witness :
    exRecipe.length < exCtx.CNT_MOD ∧
    (sendAfter exCtx exRecipe exMem exSend 1).dq = [] ∧
    (sendAfter exCtx exRecipe exMem exSend 2).dq =
      (sendAfter exCtx exRecipe exMem exSend 1).dq ++ [200] ∧
    (sendAfter exCtx exRecipe exMem exSend 3).dq = [200] ∧
    (send exCtx exRecipe exMem exSend).dq = [200, 100] :=
  ⟨by decide, by decide,
    ((send_refcount_recycle exCtx exRecipe exMem exSend (by decide) exSend_cnt).2.2.2.1 1
      (by decide)).trans (by decide),
    by decide, by decide⟩

end Restore

namespace BucketStore

/-! ### The bucket service -/

theorem padding_lt (cfg : Cfg) (size : Nat) (h : 0 < cfg.BLOCK_SIZE) :
    padding cfg size < cfg.BLOCK_SIZE :=
  Nat.mod_lt _ h

theorem padding_dvd (cfg : Cfg) (size : Nat) (h : 0 < cfg.BLOCK_SIZE) :
    cfg.BLOCK_SIZE ∣ size + padding cfg size := by
  unfold padding
  have hr : size % cfg.BLOCK_SIZE < cfg.BLOCK_SIZE := Nat.mod_lt _ h
  have hd := Nat.div_add_mod size cfg.BLOCK_SIZE
  by_cases h0 : size % cfg.BLOCK_SIZE = 0
  · rw [h0, Nat.sub_zero, Nat.mod_self, Nat.add_zero]
    exact Nat.dvd_of_mod_eq_zero h0
  · have hlt : cfg.BLOCK_SIZE - size % cfg.BLOCK_SIZE < cfg.BLOCK_SIZE := by omega
    rw [Nat.mod_eq_of_lt hlt]
    refine ⟨size / cfg.BLOCK_SIZE + 1, ?_⟩
    rw [Nat.mul_add, Nat.mul_one]
    omega

theorem padding_least (cfg : Cfg) (size m : Nat) (h : 0 < cfg.BLOCK_SIZE)
    (hm : cfg.BLOCK_SIZE ∣ m) (hle : size ≤ m) : size + padding cfg size ≤ m := by
  obtain ⟨q, hq⟩ := padding_dvd cfg size h
  obtain ⟨r, hr⟩ := hm
  have hp := padding_lt cfg size h
  by_contra hcon
  have h1 : m < size + padding cfg size := by omega
  rw [hq, hr] at h1
  have h2 : r < q := Nat.lt_of_mul_lt_mul_left h1
  have h3 : cfg.BLOCK_SIZE * (r + 1) ≤ cfg.BLOCK_SIZE * q := Nat.mul_le_mul_left _ h2
  rw [Nat.mul_add, Nat.mul_one, ← hr, ← hq] at h3
  omega

theorem padding_aligned (cfg : Cfg) (size : Nat) (hm : cfg.BLOCK_SIZE ∣ size) :
    padding cfg size = 0 := by
  unfold padding
  rw [Nat.mod_eq_zero_of_dvd hm, Nat.sub_zero, Nat.mod_self]

/-- C8: `SaveBucket` appends `remain = (BLOCK_SIZE - s mod BLOCK_SIZE) mod BLOCK_SIZE` zero
bytes to the bucket file, with `remain < BLOCK_SIZE`, and writes the log entry with the
bucket's first chunk ID and chunk count, `psize = rsize = 0`, and the size `s + remain`, which
is the least multiple of `BLOCK_SIZE` not below `s`; a block-aligned (or empty) bucket gets no
padding. -/
theorem SaveBucket_pads_to_block (cfg : Cfg) (svc : Service) (b : Bucket)
    (hB : 0 < cfg.BLOCK_SIZE) :
    padding cfg b.size = (cfg.BLOCK_SIZE - b.size % cfg.BLOCK_SIZE) % cfg.BLOCK_SIZE ∧
    (SaveBucket cfg svc b).files b.id =
      svc.files b.id ++ List.replicate (padding cfg b.size) 0 ∧
    padding cfg b.size < cfg.BLOCK_SIZE ∧
    (SaveBucket cfg svc b).en b.id =
      { cid := b.cid, chunks := b.chunks, size := b.size + padding cfg b.size,
        psize := 0, rsize := 0 } ∧
    cfg.BLOCK_SIZE ∣ b.size + padding cfg b.size ∧
    b.size ≤ b.size + padding cfg b.size ∧
    (∀ m, cfg.BLOCK_SIZE ∣ m → b.size ≤ m → b.size + padding cfg b.size ≤ m) ∧
    (cfg.BLOCK_SIZE ∣ b.size → padding cfg b.size = 0) := by
  refine ⟨rfl, by simp [SaveBucket], padding_lt cfg b.size hB, by simp [SaveBucket],
    padding_dvd cfg b.size hB, Nat.le_add_right _ _, ?_, padding_aligned cfg b.size⟩
  intro m hm hle
  exact padding_least cfg b.size m hB hm hle

/-! ### The loop of `process` -/

theorem processLoop_sentinel (cfg : Cfg) (rest : List Nat) :
    ∀ (ptrs : List Nat) (st : Service × Option Bucket), (∀ p, p ∈ ptrs → p ≠ 0) →
      processLoop cfg (ptrs ++ 0 :: rest) st = some (processed cfg ptrs st) := by
  intro ptrs
  induction ptrs with
  | nil => intro st _; simp [processLoop, processed]
  | cons p tl ih =>
    intro st h
    have hp : p ≠ 0 := h p (List.mem_cons_self _ _)
    have htl : ∀ q, q ∈ tl → q ≠ 0 := fun q hq => h q (List.mem_cons_of_mem _ hq)
    have e : processLoop cfg (p :: (tl ++ 0 :: rest)) st =
        processLoop cfg (tl ++ 0 :: rest) (processChunk cfg st p) := by
      simp [processLoop, hp]
    rw [List.cons_append, e, ih _ htl]
    simp [processed]

theorem processed_snoc (cfg : Cfg) (ptrs : List Nat) (p : Nat) (st : Service × Option Bucket) :
    processed cfg (ptrs ++ [p]) st = processChunk cfg (processed cfg ptrs st) p := by
  simp [processed, List.foldl_append]

theorem openFor_oq (cfg : Cfg) (svc : Service) (b : Option Bucket) (cid clen : Nat) :
    (openFor cfg svc b cid clen).1.oq = svc.oq := by
  unfold openFor
  cases b <;> simp only <;> split_ifs <;> simp [NewBucket, SaveBucket]

theorem BucketInsert_oq (cfg : Cfg) (svc : Service) (b : Option Bucket) (p : Nat) :
    (BucketInsert cfg svc b p).1.oq = svc.oq := by
  simp [BucketInsert, appendChunk, openFor_oq]

theorem processChunk_oq (cfg : Cfg) (st : Service × Option Bucket) (p : Nat) :
    (processChunk cfg st p).1.oq = st.1.oq ++ [p] := by
  unfold processChunk
  split_ifs <;> simp [BucketInsert_oq]

theorem processed_oq (cfg : Cfg) (ptrs : List Nat) :
    ∀ st : Service × Option Bucket, (processed cfg ptrs st).1.oq = st.1.oq ++ ptrs := by
  induction ptrs using List.reverseRecOn with
  | nil => intro st; simp [processed]
  | append_singleton l a ih =>
    intro st
    rw [processed_snoc, processChunk_oq, ih, List.append_assoc]

theorem finish_oq (cfg : Cfg) (st : Service × Option Bucket) : (finish cfg st).oq = st.1.oq := by
  unfold finish
  cases st.2 <;> simp [SaveBucket]

/-- C9: when the chunks `ptrs` arrive on the input queue followed by the `NULL` sentinel,
`process` returns; the loop puts exactly the same pointers, in the same order, on the output
queue; a bucket still open at that point is saved (padded, log entry written); and only
then is the sentinel put on the output queue, once, as its last element. -/
theorem process_forwards_then_sentinel (cfg : Cfg) (ptrs rest : List Nat) (svc : Service)
    (h : ∀ p, p ∈ ptrs → p ≠ 0) :
    ∃ svc1 : Service,
      process cfg (ptrs ++ 0 :: rest) svc = some svc1 ∧
      svc1.oq = svc.oq ++ ptrs ++ [0] ∧
      (processed cfg ptrs (svc, none)).1.oq = svc.oq ++ ptrs ∧
      svc1 = { finish cfg (processed cfg ptrs (svc, none)) with
        oq := (finish cfg (processed cfg ptrs (svc, none))).oq ++ [0] } ∧
      (finish cfg (processed cfg ptrs (svc, none))).oq = svc.oq ++ ptrs ∧
      (∀ bk, (processed cfg ptrs (svc, none)).2 = some bk →
        svc1.saved = (processed cfg ptrs (svc, none)).1.saved ++ [bk] ∧
        svc1.en bk.id = entryOf cfg bk ∧
        svc1.files bk.id = (processed cfg ptrs (svc, none)).1.files bk.id ++
          List.replicate (padding cfg bk.size) 0) := by
  refine ⟨_, ?_, ?_, ?_, rfl, ?_, ?_⟩
  · simp only [process, processLoop_sentinel cfg rest ptrs (svc, none) h]
  · simp [finish_oq, processed_oq]
  · simp [processed_oq]
  · simp [finish_oq, processed_oq]
  · intro bk hbk
    simp [finish, hbk, SaveBucket, entryOf]

/-! ### Contents of the buckets -/

theorem payload_length (ch : Chunk) : (payload ch).length = ch.clen := by
  simp [payload]

theorem padding_zero (cfg : Cfg) : padding cfg 0 = 0 := by
  simp [padding]

theorem callsOf_append (a b : List SetChunk) (id : Nat) :
    callsOf (a ++ b) id = callsOf a id ++ callsOf b id := by
  simp [callsOf, List.filter_append]

theorem content_append (a b : List SetChunk) (id : Nat) :
    content (a ++ b) id = content a id ++ content b id := by
  simp [content, callsOf_append, List.flatMap_append]

theorem content_single_same (k : SetChunk) : content [k] k.bucket = payload k.ch := by
  simp [content, callsOf]

theorem content_single_other (k : SetChunk) (id : Nat) (h : k.bucket ≠ id) :
    content [k] id = [] := by
  simp [content, callsOf, h]

theorem callsOf_single_same (k : SetChunk) : callsOf [k] k.bucket = [k] := by
  simp [callsOf]

theorem callsOf_nil_of_ne (calls : List SetChunk) (id : Nat)
    (h : ∀ k, k ∈ calls → k.bucket ≠ id) : callsOf calls id = [] := by
  unfold callsOf
  rw [List.filter_eq_nil_iff]
  intro k hk
  simpa using h k hk

theorem content_nil_of_ne (calls : List SetChunk) (id : Nat)
    (h : ∀ k, k ∈ calls → k.bucket ≠ id) : content calls id = [] := by
  simp [content, callsOf_nil_of_ne calls id h]

theorem content_length (calls : List SetChunk) (id : Nat) :
    (content calls id).length = clenSum calls id := by
  unfold content clenSum
  induction callsOf calls id with
  | nil => rfl
  | cons k tl ih => simp [List.flatMap_cons, payload_length, ih]

theorem Packed_init (cfg : Cfg) (s0 : Service) : Packed cfg s0 s0 none [] where
  index_eq := by simp
  id_lo := Nat.le_refl _
  call_range := by intro k hk; simp at hk
  closed := by intro id h1 h2; omega
  opened := by intro bk h; cases h
  pos_ok := by intro i h; simp at h
  heap_ok := by intro p; exact ⟨rfl, rfl, rfl, rfl⟩
  call_ch := by intro k hk; simp at hk
  old_files := by intro id _; rfl

theorem Packed_oq {cfg : Cfg} {s0 svc : Service} {b : Option Bucket} {calls : List SetChunk}
    (h : Packed cfg s0 svc b calls) (q : List Nat) :
    Packed cfg s0 { svc with oq := q } b calls where
  index_eq := h.index_eq
  id_lo := h.id_lo
  call_range := h.call_range
  closed := h.closed
  opened := h.opened
  pos_ok := h.pos_ok
  heap_ok := h.heap_ok
  call_ch := h.call_ch
  old_files := h.old_files

theorem Packed_new {cfg : Cfg} {s0 svc : Service} {calls : List SetChunk}
    (h : Packed cfg s0 svc none calls) (cid : Nat) :
    Packed cfg s0 (NewBucket svc cid).1 (some (NewBucket svc cid).2) calls where
  index_eq := h.index_eq
  id_lo := by have := h.id_lo; simp only [NewBucket]; omega
  call_range := by
    intro k hk
    have := h.call_range k hk
    simp only [NewBucket]
    omega
  closed := by
    intro id h1 h2 h3
    have hne : id ≠ svc.bucketID + 1 := by
      have := h3 _ rfl
      simpa [NewBucket] using this
    have h2b : id ≤ svc.bucketID := by
      simp only [NewBucket] at h2
      omega
    simp only [NewBucket, Function.update_noteq hne]
    exact h.closed id h1 h2b (by intro bk hb; cases hb)
  opened := by
    intro bk hb
    have e : bk = (NewBucket svc cid).2 := by
      injection hb with hb
      exact hb.symm
    subst e
    have hnil : ∀ k, k ∈ calls → k.bucket ≠ svc.bucketID + 1 := by
      intro k hk
      have := h.call_range k hk
      omega
    have hlo := h.id_lo
    refine ⟨rfl, by simp only [NewBucket]; omega, ?_, ?_, ?_⟩
    · simp [NewBucket, content_nil_of_ne calls _ hnil]
    · simp [NewBucket, content_nil_of_ne calls _ hnil]
    · simp [NewBucket, callsOf_nil_of_ne calls _ hnil]
  pos_ok := h.pos_ok
  heap_ok := h.heap_ok
  call_ch := h.call_ch
  old_files := by
    intro id hid
    have hlo := h.id_lo
    have hne : id ≠ svc.bucketID + 1 := by omega
    simp only [NewBucket, Function.update_noteq hne]
    exact h.old_files id hid

theorem Packed_save {cfg : Cfg} {s0 svc : Service} {bk : Bucket} {calls : List SetChunk}
    (h : Packed cfg s0 svc (some bk) calls) :
    Packed cfg s0 (SaveBucket cfg svc bk) none calls where
  index_eq := h.index_eq
  id_lo := h.id_lo
  call_range := h.call_range
  closed := by
    intro id h1 h2 _
    obtain ⟨o1, o2, o3, o4, o5⟩ := h.opened bk rfl
    by_cases e : id = bk.id
    · subst e
      simp only [SaveBucket, Function.update_same]
      rw [o3, o4]
    · simp only [SaveBucket, Function.update_noteq e]
      exact h.closed id h1 h2 (by intro b2 hb; injection hb with hb; rw [← hb]; exact e)
  opened := by intro b2 hb; cases hb
  pos_ok := h.pos_ok
  heap_ok := h.heap_ok
  call_ch := h.call_ch
  old_files := by
    intro id hid
    obtain ⟨o1, o2, o3, o4, o5⟩ := h.opened bk rfl
    have hne : id ≠ bk.id := by omega
    simp only [SaveBucket, Function.update_noteq hne]
    exact h.old_files id hid

theorem Packed_openFor {cfg : Cfg} {s0 svc : Service} {b : Option Bucket}
    {calls : List SetChunk} (h : Packed cfg s0 svc b calls) (cid clen : Nat) :
    Packed cfg s0 (openFor cfg svc b cid clen).1 (some (openFor cfg svc b cid clen).2) calls := by
  unfold openFor
  cases b with
  | none =>
    simp only
    split_ifs
    · exact Packed_new (Packed_save (Packed_new h cid)) cid
    · exact Packed_new h cid
  | some bk =>
    simp only
    split_ifs
    · exact Packed_new (Packed_save h) cid
    · exact h

theorem Packed_append {cfg : Cfg} {s0 svc : Service} {bk : Bucket} {calls : List SetChunk}
    (h : Packed cfg s0 svc (some bk) calls) (p : Nat) (hu : (s0.heap p).unique = true) :
    Packed cfg s0 (appendChunk svc bk p).1 (some (appendChunk svc bk p).2)
      (calls ++ [{ ptr := p, ch := { svc.heap p with pos := bk.size }, bucket := bk.id }]) where
  index_eq := by simp [appendChunk, h.index_eq]
  id_lo := h.id_lo
  call_range := by
    intro k hk
    obtain ⟨o1, o2, o3, o4, o5⟩ := h.opened bk rfl
    rcases List.mem_append.mp hk with hk | hk
    · exact h.call_range k hk
    · have e : k = { ptr := p, ch := { svc.heap p with pos := bk.size }, bucket := bk.id } := by
        simpa using hk
      subst e
      simp only [appendChunk]
      omega
  closed := by
    intro id h1 h2 h3
    have hne : id ≠ bk.id := by
      have := h3 _ rfl
      simpa [appendChunk] using this
    have hne2 : bk.id ≠ id := fun e => hne e.symm
    rw [content_append, content_single_other _ id hne2, List.append_nil]
    simp only [appendChunk, Function.update_noteq hne]
    exact h.closed id h1 h2 (by intro b2 hb; injection hb with hb; rw [← hb]; exact hne)
  opened := by
    intro b2 hb
    have e : b2 = (appendChunk svc bk p).2 := by
      injection hb with hb
      exact hb.symm
    subst e
    obtain ⟨o1, o2, o3, o4, o5⟩ := h.opened bk rfl
    have hc := content_single_same
      ({ ptr := p, ch := { svc.heap p with pos := bk.size }, bucket := bk.id } : SetChunk)
    have hk := callsOf_single_same
      ({ ptr := p, ch := { svc.heap p with pos := bk.size }, bucket := bk.id } : SetChunk)
    simp only at hc hk
    refine ⟨o1, o2, ?_, ?_, ?_⟩
    · simp only [appendChunk, Function.update_same]
      rw [content_append, hc, o3]
    · simp only [appendChunk]
      rw [content_append, hc, List.length_append, payload_length, o4]
    · simp only [appendChunk]
      rw [callsOf_append, hk, List.length_append, o5]
      rfl
  pos_ok := by
    intro i hi
    obtain ⟨o1, o2, o3, o4, o5⟩ := h.opened bk rfl
    by_cases hlt : i < calls.length
    · have := h.pos_ok i hlt
      simp only [List.get_eq_getElem] at this ⊢
      rw [List.getElem_append_left hlt, List.take_append_of_le_length (by omega)]
      exact this
    · have hlen := hi
      rw [List.length_append, List.length_singleton] at hlen
      have e : i = calls.length := by omega
      subst e
      simp only [List.get_eq_getElem]
      rw [List.getElem_append_right (Nat.le_refl _)]
      simp only [Nat.sub_self, List.getElem_cons_zero, List.take_left']
      exact o4
  heap_ok := by
    intro q
    by_cases e : q = p
    · subst e
      simpa [appendChunk] using h.heap_ok q
    · simp only [appendChunk, Function.update_noteq e]
      exact h.heap_ok q
  call_ch := by
    intro k hk
    rcases List.mem_append.mp hk with hk | hk
    · exact h.call_ch k hk
    · have e : k = { ptr := p, ch := { svc.heap p with pos := bk.size }, bucket := bk.id } := by
        simpa using hk
      subst e
      obtain ⟨_, _, h3, h4⟩ := h.heap_ok p
      exact ⟨h3, h4, hu⟩
  old_files := by
    intro id hid
    obtain ⟨o1, o2, o3, o4, o5⟩ := h.opened bk rfl
    have hne : id ≠ bk.id := by omega
    simp only [appendChunk, Function.update_noteq hne]
    exact h.old_files id hid

theorem openFor_heap (cfg : Cfg) (svc : Service) (b : Option Bucket) (cid clen : Nat) :
    (openFor cfg svc b cid clen).1.heap = svc.heap := by
  unfold openFor
  cases b <;> simp only <;> split_ifs <;> simp [NewBucket, SaveBucket]

/-- What `processChunk` adds to the calls of the index service for the pointer `p`. -/
theorem Packed_processChunk {cfg : Cfg} {s0 : Service} {st : Service × Option Bucket}
    {calls : List SetChunk} (h : Packed cfg s0 st.1 st.2 calls) (p : Nat) :
    ∃ more : List SetChunk,
      Packed cfg s0 (processChunk cfg st p).1 (processChunk cfg st p).2 (calls ++ more) ∧
      more.map (fun k => k.ptr) = [p].filter (fun q => (s0.heap q).unique) := by
  have hun : (st.1.heap p).unique = (s0.heap p).unique := (h.heap_ok p).2.1
  unfold processChunk
  cases hu : (s0.heap p).unique with
  | false =>
    refine ⟨[], ?_, by simp [hu]⟩
    rw [hu] at hun
    simp only [hun, Bool.false_eq_true, if_false, List.append_nil]
    exact Packed_oq h _
  | true =>
    rw [hu] at hun
    have ho := Packed_openFor h (st.1.heap p).id (st.1.heap p).clen
    have ha := Packed_append ho p hu
    simp only [hun, if_true]
    refine ⟨_, Packed_oq ha _, ?_⟩
    simp [hu]

theorem Packed_processed (cfg : Cfg) (s0 : Service) (ptrs : List Nat) :
    ∃ calls : List SetChunk,
      Packed cfg s0 (processed cfg ptrs (s0, none)).1 (processed cfg ptrs (s0, none)).2 calls ∧
      calls.map (fun k => k.ptr) = ptrs.filter (fun q => (s0.heap q).unique) := by
  induction ptrs using List.reverseRecOn with
  | nil => exact ⟨[], by simpa [processed] using Packed_init cfg s0, by simp⟩
  | append_singleton l a ih =>
    obtain ⟨calls, hp, hm⟩ := ih
    obtain ⟨more, hp2, hm2⟩ := Packed_processChunk hp a
    refine ⟨calls ++ more, ?_, ?_⟩
    · rw [processed_snoc]; exact hp2
    · rw [List.map_append, hm, hm2, List.filter_append]

theorem Packed_finish {cfg : Cfg} {s0 : Service} {st : Service × Option Bucket}
    {calls : List SetChunk} (h : Packed cfg s0 st.1 st.2 calls) :
    Packed cfg s0 (finish cfg st) none calls := by
  unfold finish
  cases hb : st.2 with
  | none => simpa [hb] using h
  | some bk =>
    simp only
    rw [hb] at h
    exact Packed_save h

theorem content_split (calls : List SetChunk) (i : Nat) (hi : i < calls.length) :
    content calls (calls.get ⟨i, hi⟩).bucket =
      content (calls.take i) (calls.get ⟨i, hi⟩).bucket ++
        (payload (calls.get ⟨i, hi⟩).ch ++
          content (calls.drop (i + 1)) (calls.get ⟨i, hi⟩).bucket) := by
  have e : calls = calls.take i ++ ([calls.get ⟨i, hi⟩] ++ calls.drop (i + 1)) := by
    rw [List.singleton_append, List.get_eq_getElem, ← List.drop_eq_getElem_cons hi,
      List.take_append_drop]
  have e2 := congrArg (fun l => content l (calls.get ⟨i, hi⟩).bucket) e
  simp only at e2
  rw [content_append, content_append, content_single_same] at e2
  exact e2

theorem slice_middle {α : Type} (a m r : List α) :
    ((a ++ (m ++ r)).drop a.length).take m.length = m := by
  simp

theorem payload_congr (a b : Chunk) (h1 : a.clen = b.clen) (h2 : a.cdata = b.cdata) :
    payload a = payload b := by
  unfold payload
  rw [h1, h2]

/-- C7: when the chunks `ptrs` are processed up to the sentinel, the calls made to the index
service are those for the unique chunks, in input order, each recording the bucket the chunk
went to; the file of every bucket created is the concatenation, in that order, of the payloads
(`clen` bytes at `cdata`) of the chunks recorded for it, followed by the padding; the position
recorded for a chunk is the sum of the `clen` of the chunks recorded earlier for the same
bucket, and the chunk's payload is the bytes `[pos, pos+clen)` of that file; earlier bucket
files are untouched; and a chunk that is not unique changes nothing but the output queue. -/
theorem bucket_content_is_unique_payloads (cfg : Cfg) (ptrs rest : List Nat) (svc : Service)
    (h : ∀ p, p ∈ ptrs → p ≠ 0) :
    ∃ (svc1 : Service) (calls : List SetChunk),
      process cfg (ptrs ++ 0 :: rest) svc = some svc1 ∧
      svc1.index = svc.index ++ calls ∧
      calls.map (fun k => k.ptr) = ptrs.filter (fun q => (svc.heap q).unique) ∧
      (∀ k, k ∈ calls → payload k.ch = payload (svc.heap k.ptr) ∧
        svc.bucketID < k.bucket ∧ k.bucket ≤ svc1.bucketID) ∧
      (∀ id, svc.bucketID < id → id ≤ svc1.bucketID →
        svc1.files id =
          content calls id ++ List.replicate (padding cfg (content calls id).length) 0) ∧
      (∀ id, id ≤ svc.bucketID → svc1.files id = svc.files id) ∧
      (∀ i (hi : i < calls.length),
        (calls.get ⟨i, hi⟩).ch.pos = clenSum (calls.take i) (calls.get ⟨i, hi⟩).bucket ∧
        ((svc1.files (calls.get ⟨i, hi⟩).bucket).drop (calls.get ⟨i, hi⟩).ch.pos).take
            (calls.get ⟨i, hi⟩).ch.clen = payload (calls.get ⟨i, hi⟩).ch) ∧
      (∀ (st : Service × Option Bucket) (p : Nat), (st.1.heap p).unique = false →
        processChunk cfg st p = ({ st.1 with oq := st.1.oq ++ [p] }, st.2)) := by
  obtain ⟨calls, hp, hm⟩ := Packed_processed cfg svc ptrs
  have hf := Packed_oq (Packed_finish hp)
    ((finish cfg (processed cfg ptrs (svc, none))).oq ++ [0])
  refine ⟨_, calls, ?_, hf.index_eq, hm, ?_, ?_, hf.old_files, ?_, ?_⟩
  · simp only [process, processLoop_sentinel cfg rest ptrs (svc, none) h]
  · intro k hk
    obtain ⟨c1, c2, _⟩ := hf.call_ch k hk
    exact ⟨payload_congr _ _ c1 c2, hf.call_range k hk⟩
  · intro id h1 h2
    exact hf.closed id h1 h2 (by intro bk hb; cases hb)
  · intro i hi
    have hpos := hf.pos_ok i hi
    have hr := hf.call_range _ (List.get_mem calls i hi)
    have hfile := hf.closed _ hr.1 hr.2 (by intro bk hb; cases hb)
    refine ⟨by rw [hpos, content_length], ?_⟩
    rw [hfile, content_split calls i hi, hpos, ← payload_length, List.append_assoc,
      List.append_assoc]
    exact slice_middle _ _ _
  · intro st p hu
    simp [processChunk, hu]

/-! ### Buckets handed to `SaveBucket` -/

theorem Tidy_init (cfg : Cfg) (s0 : Service) : Tidy cfg s0 s0 none [] where
  saved_eq := by simp
  news_ok := by intro x hx; simp at hx
  open_ok := by intro bk hb; cases hb
  open_id := by intro bk hb; cases hb
  news_id := by intro x hx; simp at hx
  en_ok := by intro x hx; simp at hx
  heap_same := by intro p; exact ⟨rfl, rfl⟩

theorem Tidy_oq {cfg : Cfg} {s0 svc : Service} {b : Option Bucket} {news : List Bucket}
    (h : Tidy cfg s0 svc b news) (q : List Nat) : Tidy cfg s0 { svc with oq := q } b news where
  saved_eq := h.saved_eq
  news_ok := h.news_ok
  open_ok := h.open_ok
  open_id := h.open_id
  news_id := h.news_id
  en_ok := h.en_ok
  heap_same := h.heap_same

theorem Tidy_save {cfg : Cfg} {s0 svc : Service} {bk : Bucket} {news : List Bucket}
    (h : Tidy cfg s0 svc (some bk) news) :
    Tidy cfg s0 (SaveBucket cfg svc bk) none (news ++ [bk]) where
  saved_eq := by simp [SaveBucket, h.saved_eq]
  news_ok := by
    intro x hx
    rcases List.mem_append.mp hx with hx | hx
    · exact h.news_ok x hx
    · have e : x = bk := by simpa using hx
      rw [e]
      exact h.open_ok bk rfl
  open_ok := by intro b2 hb; cases hb
  open_id := by intro b2 hb; cases hb
  news_id := by
    intro x hx
    refine ⟨?_, by intro b2 hb; cases hb⟩
    rcases List.mem_append.mp hx with hx | hx
    · exact (h.news_id x hx).1
    · have e : x = bk := by simpa using hx
      rw [e]
      exact Nat.le_of_eq (h.open_id bk rfl)
  en_ok := by
    intro x hx
    rcases List.mem_append.mp hx with hx | hx
    · have hlt := (h.news_id x hx).2 bk rfl
      have hne : x.id ≠ bk.id := by omega
      simp only [SaveBucket, Function.update_noteq hne]
      exact h.en_ok x hx
    · have e : x = bk := by simpa using hx
      rw [e]
      simp [SaveBucket, entryOf]
  heap_same := h.heap_same

/-- The bucket that takes the chunk at `p`, short of the conditions on the open bucket that
hold again once the chunk is appended. -/
theorem Tidy_openFor {cfg : Cfg} {s0 svc : Service} {b : Option Bucket} {news : List Bucket}
    (h : Tidy cfg s0 svc b news) (cid clen : Nat) (hc : clen ≤ cfg.BUCKET_SIZE) :
    ∃ more : List Bucket,
      (openFor cfg svc b cid clen).1.saved = s0.saved ++ (news ++ more) ∧
      (∀ x, x ∈ news ++ more → 0 < x.chunks ∧ x.size ≤ cfg.BUCKET_SIZE) ∧
      (openFor cfg svc b cid clen).2.size + clen ≤ cfg.BUCKET_SIZE ∧
      (openFor cfg svc b cid clen).2.id = (openFor cfg svc b cid clen).1.bucketID ∧
      (∀ x, x ∈ news ++ more → x.id < (openFor cfg svc b cid clen).2.id) ∧
      (∀ x, x ∈ news ++ more → (openFor cfg svc b cid clen).1.en x.id = entryOf cfg x) ∧
      (openFor cfg svc b cid clen).1.heap = svc.heap := by
  unfold openFor
  cases b with
  | none =>
    have h1 : ¬ ((NewBucket svc cid).2.size + clen > cfg.BUCKET_SIZE) := by
      simp only [NewBucket]
      omega
    simp only [h1, if_false]
    refine ⟨[], by simpa [NewBucket] using h.saved_eq, ?_, ?_, rfl, ?_, ?_, rfl⟩
    · simpa using h.news_ok
    · simp only [NewBucket]
      omega
    · intro x hx
      have := (h.news_id x (by simpa using hx)).1
      simp only [NewBucket]
      omega
    · intro x hx
      simpa [NewBucket] using h.en_ok x (by simpa using hx)
  | some bk =>
    simp only
    split_ifs with hov
    · have hs := Tidy_save h
      refine ⟨[bk], by simpa [NewBucket] using hs.saved_eq, hs.news_ok, ?_, rfl, ?_, ?_, rfl⟩
      · simp only [NewBucket]
        omega
      · intro x hx
        have := (hs.news_id x hx).1
        simp only [NewBucket, SaveBucket] at this ⊢
        omega
      · intro x hx
        simpa [NewBucket] using hs.en_ok x hx
    · have hov2 : ¬ (bk.size + clen > cfg.BUCKET_SIZE) := hov
      refine ⟨[], by simpa using h.saved_eq, ?_, by simp only; omega, h.open_id bk rfl,
        ?_, ?_, rfl⟩
      · simpa using h.news_ok
      · intro x hx
        exact (h.news_id x (by simpa using hx)).2 bk rfl
      · intro x hx
        exact h.en_ok x (by simpa using hx)

theorem Tidy_processChunk {cfg : Cfg} {s0 : Service} {st : Service × Option Bucket}
    {news : List Bucket} (h : Tidy cfg s0 st.1 st.2 news) (p : Nat)
    (hc : (s0.heap p).unique = true → (s0.heap p).clen ≤ cfg.BUCKET_SIZE) :
    ∃ more : List Bucket,
      Tidy cfg s0 (processChunk cfg st p).1 (processChunk cfg st p).2 (news ++ more) := by
  obtain ⟨hcl, hun⟩ := h.heap_same p
  unfold processChunk
  cases hu : (s0.heap p).unique with
  | false =>
    rw [hu] at hun
    refine ⟨[], ?_⟩
    simp only [hun, Bool.false_eq_true, if_false, List.append_nil]
    exact Tidy_oq h _
  | true =>
    rw [hu] at hun
    have hle : (st.1.heap p).clen ≤ cfg.BUCKET_SIZE := by rw [hcl]; exact hc hu
    obtain ⟨more, o1, o2, o3, o4, o5, o6, o7⟩ := Tidy_openFor h (st.1.heap p).id _ hle
    refine ⟨more, ?_⟩
    simp only [hun, if_true]
    apply Tidy_oq
    exact
      { saved_eq := by simpa [BucketInsert, appendChunk] using o1
        news_ok := o2
        open_ok := by
          intro bk hb
          injection hb with hb
          subst hb
          simp only [BucketInsert, appendChunk, o7]
          omega
        open_id := by
          intro bk hb
          injection hb with hb
          subst hb
          simpa [BucketInsert, appendChunk] using o4
        news_id := by
          intro x hx
          have := o5 x hx
          refine ⟨?_, ?_⟩
          · simp only [BucketInsert, appendChunk]
            omega
          · intro bk hb
            injection hb with hb
            subst hb
            simpa [BucketInsert, appendChunk] using this
        en_ok := by
          intro x hx
          simpa [BucketInsert, appendChunk] using o6 x hx
        heap_same := by
          intro q
          simp only [BucketInsert, appendChunk, o7]
          by_cases e : q = p
          · subst e
            simpa using h.heap_same q
          · rw [Function.update_noteq e]
            exact h.heap_same q }

theorem Tidy_processed (cfg : Cfg) (s0 : Service) (ptrs : List Nat)
    (hc : ∀ p, p ∈ ptrs → (s0.heap p).unique = true → (s0.heap p).clen ≤ cfg.BUCKET_SIZE) :
    ∃ news : List Bucket,
      Tidy cfg s0 (processed cfg ptrs (s0, none)).1 (processed cfg ptrs (s0, none)).2 news := by
  induction ptrs using List.reverseRecOn with
  | nil => exact ⟨[], by simpa [processed] using Tidy_init cfg s0⟩
  | append_singleton l a ih =>
    obtain ⟨news, hn⟩ := ih (fun p hp => hc p (List.mem_append.mpr (Or.inl hp)))
    obtain ⟨more, hm⟩ := Tidy_processChunk hn a (hc a (by simp))
    exact ⟨news ++ more, by rw [processed_snoc]; exact hm⟩

/-- C10: when every unique chunk of the input has `clen ≤ BUCKET_SIZE`, every bucket handed
to `SaveBucket` by `process`, on rollover or at shutdown, has at least one chunk and a payload
size of at most `BUCKET_SIZE`, and the bucket log entry written for it carries that positive
chunk count. -/
theorem saved_buckets_nonempty_and_fit (cfg : Cfg) (ptrs rest : List Nat) (svc : Service)
    (h0 : ∀ p, p ∈ ptrs → p ≠ 0)
    (hc : ∀ p, p ∈ ptrs → (svc.heap p).unique = true → (svc.heap p).clen ≤ cfg.BUCKET_SIZE) :
    ∃ (svc1 : Service) (news : List Bucket),
      process cfg (ptrs ++ 0 :: rest) svc = some svc1 ∧
      svc1.saved = svc.saved ++ news ∧
      (∀ x, x ∈ news → 0 < x.chunks ∧ x.size ≤ cfg.BUCKET_SIZE ∧
        svc1.en x.id = entryOf cfg x ∧ 0 < (svc1.en x.id).chunks) := by
  obtain ⟨news, hn⟩ := Tidy_processed cfg svc ptrs hc
  have hproc : process cfg (ptrs ++ 0 :: rest) svc =
      some { finish cfg (processed cfg ptrs (svc, none)) with
        oq := (finish cfg (processed cfg ptrs (svc, none))).oq ++ [0] } := by
    simp only [process, processLoop_sentinel cfg rest ptrs (svc, none) h0]
  cases hb : (processed cfg ptrs (svc, none)).2 with
  | none =>
    refine ⟨_, news, hproc, ?_, ?_⟩
    · simpa [finish, hb] using hn.saved_eq
    · intro x hx
      have he : (finish cfg (processed cfg ptrs (svc, none))).en x.id = entryOf cfg x := by
        simpa [finish, hb] using hn.en_ok x hx
      refine ⟨(hn.news_ok x hx).1, (hn.news_ok x hx).2, he, ?_⟩
      simp only [he, entryOf]
      exact (hn.news_ok x hx).1
  | some bk =>
    rw [hb] at hn
    have hs := Tidy_save hn
    refine ⟨_, news ++ [bk], hproc, ?_, ?_⟩
    · simpa [finish, hb] using hs.saved_eq
    · intro x hx
      have he : (finish cfg (processed cfg ptrs (svc, none))).en x.id = entryOf cfg x := by
        simpa [finish, hb] using hs.en_ok x hx
      refine ⟨(hs.news_ok x hx).1, (hs.news_ok x hx).2, he, ?_⟩
      simp only [he, entryOf]
      exact (hs.news_ok x hx).1

/-! ### `BucketInsert`: rollover or append -/

theorem BucketInsert_rollover (cfg : Cfg) (svc : Service) (bk : Bucket) (p : Nat)
    (hov : bk.size + (svc.heap p).clen > cfg.BUCKET_SIZE) :
    (BucketInsert cfg svc (some bk) p).2 =
      { id := svc.bucketID + 1, cid := (svc.heap p).id, chunks := 1, size := (svc.heap p).clen } ∧
    (BucketInsert cfg svc (some bk) p).1.bucketID = svc.bucketID + 1 ∧
    (BucketInsert cfg svc (some bk) p).1.saved = svc.saved ++ [bk] ∧
    (BucketInsert cfg svc (some bk) p).1.en = Function.update svc.en bk.id (entryOf cfg bk) ∧
    (BucketInsert cfg svc (some bk) p).1.files =
      Function.update
        (Function.update svc.files bk.id
          (svc.files bk.id ++ List.replicate (padding cfg bk.size) 0))
        (svc.bucketID + 1) (payload (svc.heap p)) ∧
    (BucketInsert cfg svc (some bk) p).1.heap =
      Function.update svc.heap p { svc.heap p with pos := 0 } ∧
    (BucketInsert cfg svc (some bk) p).1.index =
      svc.index ++
        [{ ptr := p, ch := { svc.heap p with pos := 0 }, bucket := svc.bucketID + 1 }] := by
  simp [BucketInsert, openFor, hov, appendChunk, NewBucket, SaveBucket, entryOf, payload]

theorem BucketInsert_fits (cfg : Cfg) (svc : Service) (bk : Bucket) (p : Nat)
    (hfit : ¬ bk.size + (svc.heap p).clen > cfg.BUCKET_SIZE) :
    (BucketInsert cfg svc (some bk) p).2 =
      { bk with chunks := bk.chunks + 1, size := bk.size + (svc.heap p).clen } ∧
    (BucketInsert cfg svc (some bk) p).1.bucketID = svc.bucketID ∧
    (BucketInsert cfg svc (some bk) p).1.saved = svc.saved ∧
    (BucketInsert cfg svc (some bk) p).1.en = svc.en ∧
    (BucketInsert cfg svc (some bk) p).1.files =
      Function.update svc.files bk.id (svc.files bk.id ++ payload (svc.heap p)) ∧
    (BucketInsert cfg svc (some bk) p).1.heap =
      Function.update svc.heap p { svc.heap p with pos := bk.size } ∧
    (BucketInsert cfg svc (some bk) p).1.index =
      svc.index ++ [{ ptr := p, ch := { svc.heap p with pos := bk.size }, bucket := bk.id }] := by
  simp [BucketInsert, openFor, hfit, appendChunk, payload]

theorem BucketInsert_first (cfg : Cfg) (svc : Service) (p : Nat)
    (hfit : ¬ (svc.heap p).clen > cfg.BUCKET_SIZE) :
    (BucketInsert cfg svc none p).2 =
      { id := svc.bucketID + 1, cid := (svc.heap p).id, chunks := 1, size := (svc.heap p).clen } ∧
    (BucketInsert cfg svc none p).1.bucketID = svc.bucketID + 1 ∧
    (BucketInsert cfg svc none p).1.saved = svc.saved ∧
    (BucketInsert cfg svc none p).1.en = svc.en ∧
    (BucketInsert cfg svc none p).1.files =
      Function.update svc.files (svc.bucketID + 1) (payload (svc.heap p)) ∧
    (BucketInsert cfg svc none p).1.heap =
      Function.update svc.heap p { svc.heap p with pos := 0 } ∧
    (BucketInsert cfg svc none p).1.index =
      svc.index ++
        [{ ptr := p, ch := { svc.heap p with pos := 0 }, bucket := svc.bucketID + 1 }] := by
  simp [BucketInsert, openFor, hfit, appendChunk, NewBucket, payload]

theorem BucketInsert_heap_fields (cfg : Cfg) (svc : Service) (b : Option Bucket) (p q : Nat) :
    ((BucketInsert cfg svc b p).1.heap q).id = (svc.heap q).id ∧
    ((BucketInsert cfg svc b p).1.heap q).unique = (svc.heap q).unique ∧
    ((BucketInsert cfg svc b p).1.heap q).clen = (svc.heap q).clen ∧
    ((BucketInsert cfg svc b p).1.heap q).cdata = (svc.heap q).cdata := by
  simp only [BucketInsert, appendChunk, openFor_heap]
  by_cases e : q = p
  · subst e
    simp
  · rw [Function.update_noteq e]
    exact ⟨rfl, rfl, rfl, rfl⟩

theorem processChunk_unique (cfg : Cfg) (st : Service × Option Bucket) (p : Nat)
    (hu : (st.1.heap p).unique = true) :
    processChunk cfg st p =
      ({ (BucketInsert cfg st.1 st.2 p).1 with oq := (BucketInsert cfg st.1 st.2 p).1.oq ++ [p] },
       some (BucketInsert cfg st.1 st.2 p).2) := by
  simp [processChunk, hu]

theorem chunk_setPos_congr (a b : Chunk) (x : Nat) (h1 : a.id = b.id)
    (h2 : a.unique = b.unique) (h3 : a.clen = b.clen) (h4 : a.cdata = b.cdata) :
    ({ a with pos := x } : Chunk) = { b with pos := x } := by
  cases a
  cases b
  simp only at h1 h2 h3 h4
  simp [h1, h2, h3, h4]

theorem three_chunks_two_buckets (cfg : Cfg) (svc : Service) (p1 p2 p3 : Nat) (rest : List Nat)
    (hB : 25 ≤ cfg.BUCKET_SIZE)
    (n1 : p1 ≠ 0) (n2 : p2 ≠ 0) (n3 : p3 ≠ 0)
    (u1 : (svc.heap p1).unique = true) (u2 : (svc.heap p2).unique = true)
    (u3 : (svc.heap p3).unique = true)
    (c1 : (svc.heap p1).clen = cfg.BUCKET_SIZE - 10) (c2 : (svc.heap p2).clen = 20)
    (c3 : (svc.heap p3).clen = 5) :
    ∃ svc1 : Service,
      process cfg ([p1, p2, p3] ++ 0 :: rest) svc = some svc1 ∧
      svc1.bucketID = svc.bucketID + 2 ∧
      svc1.saved = svc.saved ++
        [{ id := svc.bucketID + 1, cid := (svc.heap p1).id, chunks := 1,
           size := cfg.BUCKET_SIZE - 10 },
         { id := svc.bucketID + 2, cid := (svc.heap p2).id, chunks := 2, size := 25 }] ∧
      svc1.files (svc.bucketID + 1) =
        payload (svc.heap p1) ++ List.replicate (padding cfg (cfg.BUCKET_SIZE - 10)) 0 ∧
      svc1.files (svc.bucketID + 2) =
        payload (svc.heap p2) ++ payload (svc.heap p3) ++ List.replicate (padding cfg 25) 0 ∧
      svc1.index = svc.index ++
        [{ ptr := p1, ch := { svc.heap p1 with pos := 0 }, bucket := svc.bucketID + 1 },
         { ptr := p2, ch := { svc.heap p2 with pos := 0 }, bucket := svc.bucketID + 2 },
         { ptr := p3, ch := { svc.heap p3 with pos := 20 }, bucket := svc.bucketID + 2 }] := by
  have hnz : ∀ p, p ∈ [p1, p2, p3] → p ≠ 0 := by
    intro p hp
    simp only [List.mem_cons, List.mem_singleton, List.not_mem_nil, or_false] at hp
    rcases hp with e | e | e <;> rw [e] <;> assumption
  -- first chunk: a new bucket
  obtain ⟨a1, a2, a3, a4, a5, a6, a7⟩ := BucketInsert_first cfg svc p1 (by omega)
  have f1 := fun q => BucketInsert_heap_fields cfg svc none p1 q
  -- second chunk: rollover
  have hov : (BucketInsert cfg svc none p1).2.size +
      ((BucketInsert cfg svc none p1).1.heap p2).clen > cfg.BUCKET_SIZE := by
    rw [a1, (f1 p2).2.2.1, c1, c2]
    simp only
    omega
  have e1 := processChunk_unique cfg (svc, none) p1 u1
  have u2b : ((processChunk cfg (svc, none) p1).1.heap p2).unique = true := by
    rw [e1]; simp only; rw [(f1 p2).2.1]; exact u2
  have e2 := processChunk_unique cfg (processChunk cfg (svc, none) p1) p2 u2b
  obtain ⟨b1, b2, b3, b4, b5, b6, b7⟩ := BucketInsert_rollover cfg
    (processChunk cfg (svc, none) p1).1 (BucketInsert cfg svc none p1).2 p2
    (by rw [e1]; exact hov)
  have f2 := fun q => BucketInsert_heap_fields cfg (processChunk cfg (svc, none) p1).1
    (some (BucketInsert cfg svc none p1).2) p2 q
  have g1 : ∀ q, ((processChunk cfg (svc, none) p1).1.heap q) =
      ((BucketInsert cfg svc none p1).1.heap q) := by
    intro q; rw [e1]
  have e1s : (processChunk cfg (svc, none) p1).2 = some (BucketInsert cfg svc none p1).2 := by
    rw [e1]
  rw [e1s] at e2
  -- third chunk: appended
  have g2 : ∀ q, ((processChunk cfg (processChunk cfg (svc, none) p1) p2).1.heap q) =
      ((BucketInsert cfg (processChunk cfg (svc, none) p1).1
        (some (BucketInsert cfg svc none p1).2) p2).1.heap q) := by
    intro q; rw [e2]
  have k3 : ∀ q, ((processChunk cfg (processChunk cfg (svc, none) p1) p2).1.heap q).clen =
      (svc.heap q).clen := by
    intro q; rw [g2, (f2 q).2.2.1, g1, (f1 q).2.2.1]
  have u3b : ((processChunk cfg (processChunk cfg (svc, none) p1) p2).1.heap p3).unique =
      true := by
    rw [g2, (f2 p3).2.1, g1, (f1 p3).2.1]; exact u3
  have e3 := processChunk_unique cfg (processChunk cfg (processChunk cfg (svc, none) p1) p2) p3
    u3b
  have e2s : (processChunk cfg (processChunk cfg (svc, none) p1) p2).2 =
      some (BucketInsert cfg (processChunk cfg (svc, none) p1).1
        (some (BucketInsert cfg svc none p1).2) p2).2 := by
    rw [e2]
  rw [e2s] at e3
  obtain ⟨d1, d2, d3, d4, d5, d6, d7⟩ := BucketInsert_fits cfg
    (processChunk cfg (processChunk cfg (svc, none) p1) p2).1
    (BucketInsert cfg (processChunk cfg (svc, none) p1).1
      (some (BucketInsert cfg svc none p1).2) p2).2 p3
    (by rw [b1, k3, c3, g1, (f1 p2).2.2.1, c2]; simp only; omega)
  have e3s : (processChunk cfg (processChunk cfg (processChunk cfg (svc, none) p1) p2) p3).2 =
      some (BucketInsert cfg (processChunk cfg (processChunk cfg (svc, none) p1) p2).1
        (BucketInsert cfg (processChunk cfg (svc, none) p1).1
          (some (BucketInsert cfg svc none p1).2) p2).2 p3).2 := by
    rw [e3]
  -- the fields of the service after each chunk
  have hb1 : (processChunk cfg (svc, none) p1).1.bucketID = svc.bucketID + 1 := by
    rw [e1]; exact a2
  have hs1 : (processChunk cfg (svc, none) p1).1.saved = svc.saved := by
    rw [e1]; exact a3
  have hf1 : (processChunk cfg (svc, none) p1).1.files =
      Function.update svc.files (svc.bucketID + 1) (payload (svc.heap p1)) := by
    rw [e1]; exact a5
  have hi1 : (processChunk cfg (svc, none) p1).1.index = svc.index ++
      [{ ptr := p1, ch := { svc.heap p1 with pos := 0 }, bucket := svc.bucketID + 1 }] := by
    rw [e1]; exact a7
  have hp2 : payload ((processChunk cfg (svc, none) p1).1.heap p2) = payload (svc.heap p2) := by
    rw [g1]; exact payload_congr _ _ (f1 p2).2.2.1 (f1 p2).2.2.2
  have hb2 : (processChunk cfg (processChunk cfg (svc, none) p1) p2).1.bucketID =
      svc.bucketID + 2 := by
    rw [e2]; simp only; rw [b2, hb1]
  have hs2 : (processChunk cfg (processChunk cfg (svc, none) p1) p2).1.saved = svc.saved ++
      [{ id := svc.bucketID + 1, cid := (svc.heap p1).id, chunks := 1,
         size := cfg.BUCKET_SIZE - 10 }] := by
    rw [e2]; simp only; rw [b3, hs1, a1, c1]
  have hf2 : (processChunk cfg (processChunk cfg (svc, none) p1) p2).1.files =
      Function.update
        (Function.update svc.files (svc.bucketID + 1)
          (payload (svc.heap p1) ++ List.replicate (padding cfg (cfg.BUCKET_SIZE - 10)) 0))
        (svc.bucketID + 2) (payload (svc.heap p2)) := by
    rw [e2]; simp only; rw [b5, hf1, hb1, hp2, a1, c1]
    simp
  have hi2 : (processChunk cfg (processChunk cfg (svc, none) p1) p2).1.index = svc.index ++
      [{ ptr := p1, ch := { svc.heap p1 with pos := 0 }, bucket := svc.bucketID + 1 },
       { ptr := p2, ch := { svc.heap p2 with pos := 0 }, bucket := svc.bucketID + 2 }] := by
    rw [e2]; simp only; rw [b7, hi1, hb1, g1]
    rw [chunk_setPos_congr _ (svc.heap p2) 0 (f1 p2).1 (f1 p2).2.1 (f1 p2).2.2.1 (f1 p2).2.2.2]
    simp
  have hbk2 : (BucketInsert cfg (processChunk cfg (svc, none) p1).1
      (some (BucketInsert cfg svc none p1).2) p2).2 =
      { id := svc.bucketID + 2, cid := (svc.heap p2).id, chunks := 1, size := 20 } := by
    rw [b1, hb1, g1, (f1 p2).1, (f1 p2).2.2.1, c2]
  have h3f : ∀ q, ((processChunk cfg (processChunk cfg (svc, none) p1) p2).1.heap q).id =
        (svc.heap q).id ∧
      ((processChunk cfg (processChunk cfg (svc, none) p1) p2).1.heap q).unique =
        (svc.heap q).unique ∧
      ((processChunk cfg (processChunk cfg (svc, none) p1) p2).1.heap q).clen =
        (svc.heap q).clen ∧
      ((processChunk cfg (processChunk cfg (svc, none) p1) p2).1.heap q).cdata =
        (svc.heap q).cdata := by
    intro q
    rw [g2, (f2 q).1, (f2 q).2.1, (f2 q).2.2.1, (f2 q).2.2.2, g1, (f1 q).1, (f1 q).2.1,
      (f1 q).2.2.1, (f1 q).2.2.2]
    exact ⟨rfl, rfl, rfl, rfl⟩
  have hp3 : payload ((processChunk cfg (processChunk cfg (svc, none) p1) p2).1.heap p3) =
      payload (svc.heap p3) := payload_congr _ _ (h3f p3).2.2.1 (h3f p3).2.2.2
  rw [hbk2] at d1 d2 d3 d5 d6 d7 e3s
  simp only at d1 d5 d6 d7
  rw [hp3, hf2] at d5
  rw [hi2, chunk_setPos_congr _ (svc.heap p3) 20 (h3f p3).1 (h3f p3).2.1 (h3f p3).2.2.1
    (h3f p3).2.2.2] at d7
  rw [k3, c3] at d1
  rw [hs2] at d3
  rw [hb2] at d2
  have hproc : process cfg ([p1, p2, p3] ++ 0 :: rest) svc =
      some { finish cfg (processChunk cfg (processChunk cfg (processChunk cfg (svc, none) p1) p2)
          p3) with
        oq := (finish cfg (processChunk cfg (processChunk cfg (processChunk cfg (svc, none) p1)
          p2) p3)).oq ++ [0] } := by
    simp only [process, processLoop_sentinel cfg rest _ (svc, none) hnz]
    rfl
  have hfin : finish cfg (processChunk cfg (processChunk cfg (processChunk cfg (svc, none) p1)
      p2) p3) =
      SaveBucket cfg (processChunk cfg (processChunk cfg (processChunk cfg (svc, none) p1) p2)
        p3).1
        { id := svc.bucketID + 2, cid := (svc.heap p2).id, chunks := 1 + 1, size := 20 + 5 } := by
    simp only [finish, e3s, d1]
  have q3 : ∀ {α : Type} (f : Service → α),
      f (processChunk cfg (processChunk cfg (processChunk cfg (svc, none) p1) p2) p3).1 =
      f { (BucketInsert cfg (processChunk cfg (processChunk cfg (svc, none) p1) p2).1
            (some { id := svc.bucketID + 2, cid := (svc.heap p2).id, chunks := 1, size := 20 })
            p3).1 with
          oq := (BucketInsert cfg (processChunk cfg (processChunk cfg (svc, none) p1) p2).1
            (some { id := svc.bucketID + 2, cid := (svc.heap p2).id, chunks := 1, size := 20 })
            p3).1.oq ++ [p3] } := by
    intro α f
    rw [e3, hbk2]
  refine ⟨_, hproc, ?_, ?_, ?_, ?_, ?_⟩
  · rw [hfin]
    simp only [SaveBucket]
    rw [q3 (fun s => s.bucketID)]
    exact d2
  · rw [hfin]
    simp only [SaveBucket]
    rw [q3 (fun s => s.saved)]
    simp only
    rw [d3]
    simp
  · rw [hfin]
    have hne : svc.bucketID + 1 ≠ svc.bucketID + 2 := by omega
    simp only [SaveBucket, Function.update_noteq hne]
    rw [q3 (fun s => s.files (svc.bucketID + 1))]
    simp only
    rw [d5]
    simp
  · rw [hfin]
    simp only [SaveBucket, Function.update_same]
    rw [q3 (fun s => s.files (svc.bucketID + 2))]
    simp only
    rw [d5]
    simp
  · rw [hfin]
    simp only [SaveBucket]
    rw [q3 (fun s => s.index)]
    simp only
    rw [d7]
    simp

/-- C3: for an open bucket of size `s` and a chunk of compressed length `c`, when
`s + c > BUCKET_SIZE` `BucketInsert` saves the bucket (padding, log entry), opens the next
one and stores the chunk at offset 0 of it; otherwise it appends the chunk at offset `s` of
the open bucket.  With `BUCKET_SIZE ≥ 25`, three unique chunks of sizes `BUCKET_SIZE - 10`,
20 and 5 fed to `process` from no open bucket give exactly two buckets: the first holds
chunk 1 and its padding, the second holds chunks 2 and 3. -/
theorem BucketInsert_rollover_or_append (cfg : Cfg) (svc : Service) :
    (∀ (bk : Bucket) (p : Nat), bk.size + (svc.heap p).clen > cfg.BUCKET_SIZE →
      (BucketInsert cfg svc (some bk) p).2 =
        { id := svc.bucketID + 1, cid := (svc.heap p).id, chunks := 1,
          size := (svc.heap p).clen } ∧
      (BucketInsert cfg svc (some bk) p).1.bucketID = svc.bucketID + 1 ∧
      (BucketInsert cfg svc (some bk) p).1.saved = svc.saved ++ [bk] ∧
      (BucketInsert cfg svc (some bk) p).1.en = Function.update svc.en bk.id (entryOf cfg bk) ∧
      (BucketInsert cfg svc (some bk) p).1.files =
        Function.update
          (Function.update svc.files bk.id
            (svc.files bk.id ++ List.replicate (padding cfg bk.size) 0))
          (svc.bucketID + 1) (payload (svc.heap p)) ∧
      (BucketInsert cfg svc (some bk) p).1.heap =
        Function.update svc.heap p { svc.heap p with pos := 0 } ∧
      (BucketInsert cfg svc (some bk) p).1.index =
        svc.index ++
          [{ ptr := p, ch := { svc.heap p with pos := 0 }, bucket := svc.bucketID + 1 }]) ∧
    (∀ (bk : Bucket) (p : Nat), ¬ bk.size + (svc.heap p).clen > cfg.BUCKET_SIZE →
      (BucketInsert cfg svc (some bk) p).2 =
        { bk with chunks := bk.chunks + 1, size := bk.size + (svc.heap p).clen } ∧
      (BucketInsert cfg svc (some bk) p).1.bucketID = svc.bucketID ∧
      (BucketInsert cfg svc (some bk) p).1.saved = svc.saved ∧
      (BucketInsert cfg svc (some bk) p).1.en = svc.en ∧
      (BucketInsert cfg svc (some bk) p).1.files =
        Function.update svc.files bk.id (svc.files bk.id ++ payload (svc.heap p)) ∧
      (BucketInsert cfg svc (some bk) p).1.heap =
        Function.update svc.heap p { svc.heap p with pos := bk.size } ∧
      (BucketInsert cfg svc (some bk) p).1.index =
        svc.index ++
          [{ ptr := p, ch := { svc.heap p with pos := bk.size }, bucket := bk.id }]) ∧
    (∀ (p1 p2 p3 : Nat) (rest : List Nat), 25 ≤ cfg.BUCKET_SIZE →
      p1 ≠ 0 → p2 ≠ 0 → p3 ≠ 0 →
      (svc.heap p1).unique = true → (svc.heap p2).unique = true →
      (svc.heap p3).unique = true →
      (svc.heap p1).clen = cfg.BUCKET_SIZE - 10 → (svc.heap p2).clen = 20 →
      (svc.heap p3).clen = 5 →
      ∃ svc1 : Service,
        process cfg ([p1, p2, p3] ++ 0 :: rest) svc = some svc1 ∧
        svc1.bucketID = svc.bucketID + 2 ∧
        svc1.saved = svc.saved ++
          [{ id := svc.bucketID + 1, cid := (svc.heap p1).id, chunks := 1,
             size := cfg.BUCKET_SIZE - 10 },
           { id := svc.bucketID + 2, cid := (svc.heap p2).id, chunks := 2, size := 25 }] ∧
        svc1.files (svc.bucketID + 1) =
          payload (svc.heap p1) ++ List.replicate (padding cfg (cfg.BUCKET_SIZE - 10)) 0 ∧
        svc1.files (svc.bucketID + 2) =
          payload (svc.heap p2) ++ payload (svc.heap p3) ++
            List.replicate (padding cfg 25) 0 ∧
        svc1.index = svc.index ++
          [{ ptr := p1, ch := { svc.heap p1 with pos := 0 }, bucket := svc.bucketID + 1 },
           { ptr := p2, ch := { svc.heap p2 with pos := 0 }, bucket := svc.bucketID + 2 },
           { ptr := p3, ch := { svc.heap p3 with pos := 20 }, bucket := svc.bucketID + 2 }]) :=
  ⟨fun bk p h => BucketInsert_rollover cfg svc bk p h,
    fun bk p h => BucketInsert_fits cfg svc bk p h,
    fun p1 p2 p3 rest hB n1 n2 n3 u1 u2 u3 c1 c2 c3 =>
      three_chunks_two_buckets cfg svc p1 p2 p3 rest hB n1 n2 n3 u1 u2 u3 c1 c2 c3⟩

/-- C3, on the test run: chunks of 20, 20 and 5 bytes with buckets of 30 bytes give the two
buckets `(1, 1 chunk, 20 bytes)` and `(2, 2 chunks, 25 bytes)`. -/
theorem BucketInsert_rollover_or_append_witness :
    ∃ svc1 : Service,
      process exCfg [1, 2, 3, 0] exSvc = some svc1 ∧ svc1.bucketID = 2 ∧
      svc1.saved = [{ id := 1, cid := 11, chunks := 1, size := 20 },
                    { id := 2, cid := 12, chunks := 2, size := 25 }] := by
  obtain ⟨s, h1, h2, h3, _⟩ := (BucketInsert_rollover_or_append exCfg exSvc).2.2 1 2 3 []
    (by decide) (by decide) (by decide) (by decide) rfl rfl rfl rfl rfl rfl
  exact ⟨s, h1, h2, h3⟩

/-- C7, on the test run with a duplicate chunk (address 4) between the unique ones: the
index service is called for the chunks at 1, 2 and 3, in that order. -/
theorem bucket_content_is_unique_payloads_witness :
    ∃ (svc1 : Service) (calls : List SetChunk),
      process exCfg [1, 4, 2, 3, 0] exSvc = some svc1 ∧
      svc1.index = calls ∧ calls.map (fun k => k.ptr) = [1, 2, 3] := by
  obtain ⟨s, calls, h1, h2, h3, _⟩ :=
    bucket_content_is_unique_payloads exCfg [1, 4, 2, 3] [] exSvc (by decide)
  exact ⟨s, calls, h1, by simpa [exSvc] using h2, h3.trans (by decide)⟩

/-- C8, on a bucket of 20 bytes with blocks of 8 bytes: 4 bytes of padding, recorded size
24. -/
theorem SaveBucket_pads_to_block_witness :
    0 < exCfg.BLOCK_SIZE ∧ padding exCfg 20 = 4 ∧
    (SaveBucket exCfg exSvc { id := 1, cid := 11, chunks := 1, size := 20 }).en 1 =
      { cid := 11, chunks := 1, size := 24, psize := 0, rsize := 0 } :=
  ⟨by decide, by decide,
    (SaveBucket_pads_to_block exCfg exSvc { id := 1, cid := 11, chunks := 1, size := 20 }
      (by decide)).2.2.2.1.trans (by decide)⟩

/-- C9, on the test run: the four chunk pointers go out in input order, then the
sentinel. -/
theorem process_forwards_then_sentinel_witness :
    ∃ svc1 : Service,
      process exCfg [1, 4, 2, 3, 0] exSvc = some svc1 ∧ svc1.oq = [1, 4, 2, 3, 0] := by
  obtain ⟨s, h1, h2, _⟩ :=
    process_forwards_then_sentinel exCfg [1, 4, 2, 3] [] exSvc (by decide)
  exact ⟨s, h1, by simpa [exSvc] using h2⟩

/-- C10, on the test run: every chunk fits a bucket, and the two buckets saved hold one and
two chunks. -/
theorem saved_buckets_nonempty_and_fit_witness :
    ∃ (svc1 : Service) (news : List Bucket),
      process exCfg [1, 4, 2, 3, 0] exSvc = some svc1 ∧ svc1.saved = news ∧
      ∀ x, x ∈ news → 0 < x.chunks ∧ x.size ≤ 30 := by
  obtain ⟨s, news, h1, h2, h3⟩ :=
    saved_buckets_nonempty_and_fit exCfg [1, 4, 2, 3] [] exSvc (by decide) (by decide)
  exact ⟨s, news, h1, by simpa [exSvc] using h2, fun x hx => ⟨(h3 x hx).1, (h3 x hx).2.1⟩⟩

end BucketStore
